import Mathlib

/-!
Verification of the yoink directory-aggregation tool.

This file gives a shallow embedding of the core of the `yoink` repository
(src/utils.rs, src/cli.rs, src/file_scanner/scanner.rs, src/file_tree/builder.rs,
src/text_processor/processor.rs, src/file_processor.rs) and proves or refutes
the specification claims about it.

Rust strings are modelled as `List Char`, byte buffers as `List Nat`
(each entry < 256 in intended use), and fallible I/O as `Option`.
-/

namespace Yoink

/-- Rust `String` / `&str` values, modelled as lists of characters. -/
abbrev Str := List Char

/-- ASCII lowercasing of one character.  Models Rust `char::to_lowercase`
restricted to the ASCII range (the only range exercised here); Rust performs
full Unicode lowercasing, which agrees with this on ASCII. -/
def lowerChar (c : Char) : Char :=
  if 65 ≤ c.toNat ∧ c.toNat ≤ 90 then Char.ofNat (c.toNat + 32) else c

/-- Models Rust `str::to_lowercase` (ASCII fragment). -/
def lowerStr (s : Str) : Str := s.map lowerChar

/-- Substring search: does `needle` occur contiguously in `hay`? -/
def infixAt (needle : Str) : Str → Bool
  | [] => needle.isPrefixOf []
  | c :: rest => needle.isPrefixOf (c :: rest) || infixAt needle rest

/-- Models Rust `str::contains(needle)`: substring containment. -/
def strContains (hay needle : Str) : Bool := infixAt needle hay

/-- Strip one trailing carriage return, as Rust `str::strip_suffix('\r')`
applied by `str::lines` to a chunk that was terminated by a newline. -/
def trimCr (s : Str) : Str :=
  if s.getLast? = some '\r' then s.dropLast else s

/-- Worker for `rustLines`: `acc` holds the current chunk, reversed. -/
def rustLinesGo (acc : Str) : Str → List Str
  | [] => [acc.reverse]
  | c :: cs =>
    if c = '\n' then
      trimCr acc.reverse :: (if cs.isEmpty then [] else rustLinesGo [] cs)
    else rustLinesGo (c :: acc) cs

/-- Models Rust `str::lines`: split at `'\n'`, dropping one `'\r'` before each
`'\n'`; the final line terminator is optional, and a chunk not terminated by a
newline keeps a trailing `'\r'`. -/
def rustLines (s : Str) : List Str :=
  if s.isEmpty then [] else rustLinesGo [] s

/-- Worker for `splitSlash`: `acc` holds the current chunk, reversed. -/
def splitSlashGo (acc : Str) : Str → List Str
  | [] => [acc.reverse]
  | c :: cs => if c = '/' then acc.reverse :: splitSlashGo [] cs else splitSlashGo (c :: acc) cs

/-- Models Rust `str::split('/')` (always yields at least one chunk). -/
def splitSlash (s : Str) : List Str := splitSlashGo [] s

/-- Join path components with `'/'`, the inverse of `splitSlash` on
separator-free components.  Models `Path::display` for the paths built here. -/
def joinSlash : List Str → Str
  | [] => []
  | [c] => c
  | c :: rest => c ++ '/' :: joinSlash rest

/-! ### Content classifier (src/utils.rs) -/

/-- Modelled from the external `infer` crate used by `utils.rs::is_text`:
magic-number based file-type sniffing over the first bytes of the buffer.
A representative set of signatures is embedded (PDF, PNG, JPEG, GZIP, ZIP);
`none` models "no known signature recognized".  Returns the MIME type. -/
def infer_get (data : List Nat) : Option Str :=
  if data.take 4 = [0x25, 0x50, 0x44, 0x46] then some "application/pdf".toList
  else if data.take 8 = [0x89, 0x50, 0x4E, 0x47, 0x0D, 0x0A, 0x1A, 0x0A] then some "image/png".toList
  else if data.take 3 = [0xFF, 0xD8, 0xFF] then some "image/jpeg".toList
  else if data.take 2 = [0x1F, 0x8B] then some "application/gzip".toList
  else if data.take 4 = [0x50, 0x4B, 0x03, 0x04] then some "application/zip".toList
  else none

/-- Models `utils.rs::is_binary_mime_type`. -/
def is_binary_mime_type (m : Str) : Bool :=
  ("image/".toList).isPrefixOf m || ("video/".toList).isPrefixOf m ||
    ("audio/".toList).isPrefixOf m ||
    (("application/".toList).isPrefixOf m && !(strContains m "json".toList) &&
      !(strContains m "xml".toList) && !(strContains m "text".toList))

/-- Models `utils.rs::is_text`: content-based text detection.  The Rust code
compares `text_chars as f32 / sample_size as f32` against `0.95` / `0.8`;
this is modelled by exact cross-multiplication (`0.95 = 19/20`, `0.8 = 4/5`),
which agrees with the f32 comparison on every sample size up to 4096. -/
def is_text (data : List Nat) : Bool :=
  if data.isEmpty then false
  else if (match infer_get data with
           | some m => is_binary_mime_type m
           | none => false) then false
  else
    let nullByteCount := ((data.take 4096).filter (fun b => b = 0)).length
    if nullByteCount > 0 then false
    else
      let sampleSize := min data.length 4096
      let sample := data.take sampleSize
      let textChars := (sample.filter (fun b => 32 ≤ b || b = 10 || b = 13 || b = 9)).length
      if sampleSize < 100 then 19 * sampleSize ≤ 20 * textChars
      else 4 * sampleSize ≤ 5 * textChars

/-- Models `utils.rs::is_common_text_extension` (extension already lower-cased). -/
def is_common_text_extension (e : Str) : Bool :=
  (String.mk e) ∈ (["txt", "md", "markdown", "rst",
    "html", "htm", "css", "scss", "sass", "less",
    "js", "jsx", "ts", "tsx", "json", "toml", "yaml", "yml",
    "rs", "go", "py", "rb", "php", "java", "kt", "c", "cpp", "h", "hpp",
    "cs", "fs", "swift", "scala", "groovy", "pl", "sh", "bash", "zsh",
    "ini", "cfg", "conf", "config", "properties", "xml", "svg",
    "sql", "graphql", "gql", "r", "lua", "ex", "exs", "elm", "clj",
    "hs", "erl", "lisp", "dart"] : List String)

/-- Models `utils.rs::is_common_binary_extension` (extension already lower-cased). -/
def is_common_binary_extension (e : Str) : Bool :=
  (String.mk e) ∈ (["exe", "dll", "so", "dylib", "bin", "o", "a", "lib", "obj",
    "png", "jpg", "jpeg", "gif", "bmp", "tiff", "webp", "ico", "heic",
    "mp3", "wav", "ogg", "flac", "m4a", "aac", "wma",
    "mp4", "avi", "mov", "mkv", "flv", "wmv", "webm",
    "pdf", "doc", "docx", "xls", "xlsx", "ppt", "pptx",
    "zip", "rar", "tar", "gz", "7z", "bz2", "xz", "iso",
    "db", "sqlite", "mdb", "class", "pyc", "pyo", "pyd",
    "ttf", "otf", "woff", "woff2", "eot",
    "dat", "pb", "deb", "rpm", "tgz", "pkg"] : List String)

/-- Models Rust `Path::extension` on a file name: the part after the last
dot, unless there is no dot or the only dot is the leading one. -/
def rustExtension (name : Str) : Option Str :=
  let afterLast := name.reverse.takeWhile (· ≠ '.')
  if afterLast.length = name.length then none
  else if afterLast.length + 1 = name.length ∧ name.head? = some '.' then none
  else some afterLast.reverse

/-- Models `utils.rs::is_text_file`.  `ext` is `path.extension()`; `bytes`
models the file's readable content (`none` = `File::open`/`read` fails);
the Rust code reads at most 8192 bytes for the content heuristic.
Result `none` models the `io::Result` error case. -/
def is_text_file (ext : Option Str) (bytes : Option (List Nat)) : Option Bool :=
  let contentCheck : Option Bool := bytes.map (fun bs => is_text (bs.take 8192))
  match ext with
  | some e =>
    let e := lowerStr e
    if is_common_text_extension e then some true
    else if is_common_binary_extension e then some false
    else contentCheck
  | none => contentCheck

/-! ### Glob patterns (external `glob` crate, as used by src/cli.rs) -/

/-- One compiled token of a glob pattern, modelled from the external `glob`
crate: literal character, `?`, `*`, `**`, or a character class with ranges. -/
inductive GlobToken where
  | lit (c : Char)
  | anyChar
  | anySeq
  | anyRecSeq
  | cls (negated : Bool) (ranges : List (Char × Char))
deriving DecidableEq

/-- A compiled glob pattern. -/
abbrev GlobPattern := List GlobToken

/-- Parse the members of a character class (the part after `[`, and after a
leading `!` if present) up to the closing `]`.  Returns the ranges and the
remaining input; `none` models the `glob` crate's compile error on an
unclosed class or an inverted range. -/
def classMembers : List Char → Option (List (Char × Char) × List Char)
  | [] => none
  | ']' :: rest => some ([], rest)
  | a :: '-' :: ']' :: rest => some ([(a, a), ('-', '-')], rest)
  | a :: '-' :: b :: rest =>
    if a ≤ b then (classMembers rest).map (fun p => ((a, b) :: p.1, p.2)) else none
  | a :: rest => (classMembers rest).map (fun p => ((a, a) :: p.1, p.2))

/-- Fuel-indexed worker for `globCompile`; `prev` is the previously consumed
character (used for the `**`-must-be-its-own-component rule).  Models
`glob::Pattern::new`: `?`, `*`, `**` (only as a full path component),
`[...]` classes with `!` negation; any other character is a literal —
in particular a backslash is an ordinary literal character, not an escape. -/
def globCompileGo : Nat → Option Char → List Char → Option GlobPattern
  | 0, _, _ => none
  | _ + 1, _, [] => some []
  | fuel + 1, prev, c :: cs =>
    if c = '?' then (globCompileGo fuel (some '?') cs).map (fun ts => .anyChar :: ts)
    else if c = '*' then
      (if (cs.takeWhile (fun d => d = '*')).isEmpty then
        (globCompileGo fuel (some '*') cs).map (fun ts => .anySeq :: ts)
      else
        let rest := cs.dropWhile (fun d => d = '*')
        if (prev = none ∨ prev = some '/') ∧ (rest = [] ∨ rest.head? = some '/') then
          (globCompileGo fuel (some '*') rest).map (fun ts => .anyRecSeq :: ts)
        else none)
    else if c = '[' then
      match classMembers (if cs.head? = some '!' then cs.tail else cs) with
      | some (ms, rest) =>
        (globCompileGo fuel (some ']') rest).map (fun ts => .cls (cs.head? = some '!') ms :: ts)
      | none => none
    else (globCompileGo fuel (some c) cs).map (fun ts => .lit c :: ts)

/-- Models `glob::Pattern::new`: compile a pattern string, `none` = compile
error.  Every step of the worker consumes at least one input character, so
`length + 1` fuel always suffices. -/
def globCompile (p : Str) : Option GlobPattern := globCompileGo (p.length + 1) none p

/-- Does one glob token match one character (default `MatchOptions`:
case-sensitive, separators not required to match literally)? -/
def globTokMatches (t : GlobToken) (c : Char) : Bool :=
  match t with
  | .lit d => c = d
  | .anyChar => true
  | .cls neg rs => (rs.any (fun r => r.1 ≤ c && c ≤ r.2)) != neg
  | _ => false

/-- Fuel-indexed glob matcher, models `glob::Pattern::matches` with default
options (where `*`/`**`/`?` may also match `/`). -/
def globMatchFuel : Nat → GlobPattern → Str → Bool
  | 0, _, _ => false
  | _ + 1, [], s => s.isEmpty
  | fuel + 1, .anySeq :: ts, s =>
    globMatchFuel fuel ts s ||
      (match s with
       | [] => false
       | _ :: s2 => globMatchFuel fuel (.anySeq :: ts) s2)
  | fuel + 1, .anyRecSeq :: ts, s =>
    globMatchFuel fuel ts s ||
      (match s with
       | [] => false
       | _ :: s2 => globMatchFuel fuel (.anyRecSeq :: ts) s2)
  | _ + 1, _ :: _, [] => false
  | fuel + 1, t :: ts, c :: s2 => globTokMatches t c && globMatchFuel fuel ts s2

/-- Models `glob::Pattern::matches` on a file name.  Every recursive step of
the matcher shortens the pattern or the string, so this fuel suffices. -/
def globMatches (p : GlobPattern) (name : Str) : Bool :=
  globMatchFuel (p.length + name.length + 1) p name

/-- Models the character escaping in `cli.rs::Config::from_matches`:
the special characters are prefixed with a backslash. -/
def escapeGlob (p : Str) : Str :=
  p.flatMap (fun c =>
    if c = '*' ∨ c = '?' ∨ c = '[' ∨ c = ']' ∨ c = '{' ∨ c = '}' ∨ c = '(' ∨ c = ')'
    then ['\\', c] else [c])

/-- The `glob::Pattern::new("NOMATCH").unwrap()` ultimate fallback of
`cli.rs::Config::from_matches`: seven literal tokens. -/
def nomatchPattern : GlobPattern := ("NOMATCH".toList).map GlobToken.lit

/-- Models the pattern-compilation fallback chain in
`cli.rs::Config::from_matches` (lines 70–88): compile the configured string;
on failure compile the backslash-escaped string; on failure fall back to the
literal pattern `NOMATCH`. -/
def patternFromConfig (p : Str) : GlobPattern :=
  match globCompile p with
  | some pat => pat
  | none =>
    match globCompile (escapeGlob p) with
    | some pat => pat
    | none => nomatchPattern

/-! ### Search match extraction (src/text_processor/processor.rs) -/

/-- The sentinel index `usize::MAX` used by `format_text_content` to mark a
separator entry (64-bit platform). -/
def SENTINEL : Nat := 2 ^ 64 - 1

/-- Decimal rendering of a line number. -/
def numStr (n : Nat) : Str := (toString n).toList

/-- Does one line match the query, per the per-line check in
`format_text_content` (case-folded on both sides when not case-sensitive)? -/
def lineMatches (caseSensitive : Bool) (q line : Str) : Bool :=
  if caseSensitive then strContains line q
  else strContains (lowerStr line) (lowerStr q)

/-- The context window `[i-3, i+3]` (clamped to the file bounds) around a
matching line index `i`, as (index, line) pairs — the inner `for j in
start..=end` loop of `format_text_content`. -/
def windowOf (lines : List Str) (i : Nat) : List (Nat × Str) :=
  let start := i - 3
  let stop := min (i + 3) (lines.length - 1)
  (List.range' start (stop + 1 - start)).map (fun j => (j, lines.getD j []))

/-- The `found_lines` vector built by `format_text_content`: for each matching
line, its context window followed by a `(usize::MAX, "...")` separator entry. -/
def collectFound (caseSensitive : Bool) (q : Str) (lines : List Str) : List (Nat × Str) :=
  lines.enum.foldl
    (fun acc p =>
      if lineMatches caseSensitive q p.2 then
        acc ++ (windowOf lines p.1 ++ [(SENTINEL, "...".toList)])
      else acc)
    []

/-- The same collection without the sentinel separator entries (used by the
specification-side description of the excerpt). -/
def specCollect (caseSensitive : Bool) (q : Str) (lines : List Str) : List (Nat × Str) :=
  lines.enum.foldl
    (fun acc p => if lineMatches caseSensitive q p.2 then acc ++ windowOf lines p.1 else acc)
    []

/-- Stable insertion by key, modelling one step of `Vec::sort_by_key`. -/
def insertByKey (x : Nat × Str) : List (Nat × Str) → List (Nat × Str)
  | [] => [x]
  | y :: ys => if x.1 ≤ y.1 then x :: y :: ys else y :: insertByKey x ys

/-- Stable sort by key, modelling `found_lines.sort_by_key(|&(idx, _)| idx)`. -/
def sortByKey (l : List (Nat × Str)) : List (Nat × Str) :=
  l.foldr insertByKey []

/-- Worker for `dedupByKey`: drop entries whose key equals the previous
kept entry's key. -/
def dedupGo (prev : Nat) : List (Nat × Str) → List (Nat × Str)
  | [] => []
  | y :: rest => if y.1 = prev then dedupGo prev rest else y :: dedupGo y.1 rest

/-- Models `Vec::dedup_by_key`: remove consecutive entries with equal keys,
keeping the first of each run. -/
def dedupByKey : List (Nat × Str) → List (Nat × Str)
  | [] => []
  | x :: rest => x :: dedupGo x.1 rest

/-- The emission loop of `format_text_content`: a sentinel entry emits `"..."`
and resets `first`; otherwise a `"..."` separator is emitted when there is a
gap to the previous index, then the line with its 1-based number. -/
def emitLoop : Nat → Bool → List (Nat × Str) → List Str
  | _, _, [] => []
  | prevIdx, first, p :: rest =>
    if p.1 = SENTINEL then "...".toList :: emitLoop prevIdx true rest
    else
      (if first = false ∧ prevIdx + 1 < p.1 then ["...".toList] else []) ++
        (numStr (p.1 + 1) ++ ": ".toList ++ p.2) :: emitLoop p.1 false rest

/-- The context-excerpt lines emitted by the search branch of
`format_text_content` (between the match header and the final blank line). -/
def searchExcerpt (caseSensitive : Bool) (q : Str) (lines : List Str) : List Str :=
  emitLoop 0 true (dedupByKey (sortByKey (collectFound caseSensitive q lines)))

/-- The excerpt as the specification words it (§4.3): collect the context
windows, sort by line index, deduplicate exact-duplicate indices, emit each
line with its 1-based number, and emit a single `"..."` exactly where a gap
exists between the previous emitted index and the next — with no separator
entries beyond that.  This is the spec-side definition, for comparison with
`searchExcerpt`. -/
def specExcerpt (caseSensitive : Bool) (q : Str) (lines : List Str) : List Str :=
  emitLoop 0 true (dedupByKey (sortByKey (specCollect caseSensitive q lines)))

/-- Models `TextProcessor::format_text_content`.  Returns (was_included,
chunks appended to the buffer); each chunk is the argument of one `push_str`
call, with line terminators elided. -/
def format_text_content (searchText : Option Str) (caseSensitive : Bool)
    (path : Str) (content : Str) : Bool × List Str :=
  match searchText with
  | some q =>
    let found :=
      if caseSensitive then strContains content q
      else strContains (lowerStr content) (lowerStr q)
    if found = false then (false, [])
    else
      (true,
        ("=== MATCH IN: ".toList ++ path ++ " ===".toList) ::
          searchExcerpt caseSensitive q (rustLines content) ++ [[]])
  | none =>
    (true, [("=== ".toList ++ path ++ " ===".toList), content, []])

/-! ### UTF-8 decoding (Rust `String::from_utf8` / `fs::read_to_string`) -/

/-- Is `b` a UTF-8 continuation byte? -/
def isCont (b : Nat) : Bool := 0x80 ≤ b && b ≤ 0xBF

/-- Strict UTF-8 decoding of a byte list, models Rust `String::from_utf8`
(and the validation done by `fs::read_to_string`): rejects overlong forms,
surrogates and out-of-range code points; `none` = decode error. -/
def utf8Decode : List Nat → Option Str
  | [] => some []
  | b :: rest =>
    if b ≤ 0x7F then (utf8Decode rest).map (fun s => Char.ofNat b :: s)
    else if 0xC2 ≤ b ∧ b ≤ 0xDF then
      match rest with
      | b1 :: rest2 =>
        if isCont b1 then
          (utf8Decode rest2).map (fun s => Char.ofNat ((b - 0xC0) * 0x40 + (b1 - 0x80)) :: s)
        else none
      | [] => none
    else if 0xE0 ≤ b ∧ b ≤ 0xEF then
      match rest with
      | b1 :: b2 :: rest2 =>
        let lo1 := if b = 0xE0 then 0xA0 else 0x80
        let hi1 := if b = 0xED then 0x9F else 0xBF
        if lo1 ≤ b1 ∧ b1 ≤ hi1 ∧ isCont b2 then
          (utf8Decode rest2).map
            (fun s => Char.ofNat ((b - 0xE0) * 0x1000 + (b1 - 0x80) * 0x40 + (b2 - 0x80)) :: s)
        else none
      | _ => none
    else if 0xF0 ≤ b ∧ b ≤ 0xF4 then
      match rest with
      | b1 :: b2 :: b3 :: rest2 =>
        let lo1 := if b = 0xF0 then 0x90 else 0x80
        let hi1 := if b = 0xF4 then 0x8F else 0xBF
        if lo1 ≤ b1 ∧ b1 ≤ hi1 ∧ isCont b2 ∧ isCont b3 then
          (utf8Decode rest2).map
            (fun s =>
              Char.ofNat ((b - 0xF0) * 0x40000 + (b1 - 0x80) * 0x1000 +
                (b2 - 0x80) * 0x40 + (b3 - 0x80)) :: s)
        else none
      | _ => none
    else none

/-! ### Configuration and filesystem model -/

/-- Models `cli.rs::Config` (the fields the core consumes).  Extension lists
are lower-cased at load time, as in `Config::from_matches`. -/
structure Config where
  path : Str
  max_size : Nat
  verbose : Bool
  max_depth : Nat
  include_extensions : Option (List Str)
  exclude_extensions : Option (List Str)
  exclude_paths : Option (List Str)
  pattern : Option GlobPattern
  skip_hidden : Bool
  sort : Bool
  search_text : Option Str
  case_sensitive : Bool

/-- One filesystem node as discovered by `WalkDir` (in enumeration order):
its path components relative to the walk (root first), its depth, whether it
is a directory, whether `path.is_file()` holds, whether `path.metadata()`
succeeds, its size, and its readable content (`none` = any attempt to open
or read the file fails). -/
structure FSEntry where
  components : List Str
  depth : Nat
  isDir : Bool
  isFile : Bool
  metaOk : Bool
  size : Nat
  bytes : Option (List Nat)
deriving DecidableEq

/-- The filesystem as seen in one run: whether the configured root exists,
and the entries `WalkDir` would enumerate under it, in enumeration order. -/
structure FS where
  rootExists : Bool
  entries : List FSEntry

/-- The file name (last path component) of an entry, models
`DirEntry::file_name`. -/
def basenameOf (e : FSEntry) : Str := e.components.getLastD []

/-- The displayed path of an entry, models `entry.path().display()`. -/
def pathStrOf (e : FSEntry) : Str := joinSlash e.components

/-! ### Path filter engine (src/file_scanner/scanner.rs) -/

/-- Models `FileScanner::should_process_file`: hidden check on the entry's
own file name, excluded exact path components, extension allow/deny lists
(lower-cased), and the filename glob pattern. -/
def should_process_file (cfg : Config) (e : FSEntry) : Bool :=
  if cfg.skip_hidden && ((basenameOf e).head? = some '.') then false
  else if (match cfg.exclude_paths with
           | some excl =>
             (splitSlash (pathStrOf e)).any (fun comp => excl.contains comp)
           | none => false) then false
  else
    let ext := (rustExtension (basenameOf e)).map lowerStr
    if (match cfg.include_extensions with
        | some incl => (ext.map (fun x => !(incl.contains x))).getD true
        | none => false) then false
    else if (match cfg.exclude_extensions with
             | some excl => (ext.map (fun x => excl.contains x)).getD false
             | none => false) then false
    else
      match cfg.pattern with
      | some pat => globMatches pat (basenameOf e)
      | none => true

/-- Models `FileScanner::collect_files`: nothing if the root is missing,
otherwise the non-directory entries within the depth bound that pass
`should_process_file`, in enumeration order. -/
def collect_files (cfg : Config) (fs : FS) : List FSEntry :=
  if fs.rootExists = false then []
  else
    fs.entries.filter
      (fun e => e.depth ≤ cfg.max_depth && !e.isDir && should_process_file cfg e)

/-! ### Directory tree builder (src/file_tree/builder.rs) -/

/-- Models `DirectoryTreeBuilder::should_include_in_tree`: only the hidden
and excluded-path-component rules. -/
def should_include_in_tree (cfg : Config) (e : FSEntry) : Bool :=
  if cfg.skip_hidden && ((basenameOf e).head? = some '.') then false
  else
    match cfg.exclude_paths with
    | some excl => !((splitSlash (pathStrOf e)).any (fun comp => excl.contains comp))
    | none => true

/-- Decidable equality for `Except`, used to evaluate run results. -/
instance exceptDecEq {ε α : Type} [DecidableEq ε] [DecidableEq α] : DecidableEq (Except ε α) :=
  fun a b =>
    match a, b with
    | .error e1, .error e2 =>
      decidable_of_iff (e1 = e2) ⟨fun h => by rw [h], fun h => by injection h⟩
    | .error _, .ok _ => isFalse (fun h => by injection h)
    | .ok _, .error _ => isFalse (fun h => by injection h)
    | .ok a1, .ok a2 =>
      decidable_of_iff (a1 = a2) ⟨fun h => by rw [h], fun h => by injection h⟩

/-! ### Deterministic entry ordering (`entries.sort_by_key(|e| e.path().to_path_buf())`) -/

/-- Byte-lexicographic strict comparison of two strings, modelling the `Ord`
instance Rust uses for path components (UTF-8 byte order agrees with code
point order). -/
def strLtB : Str → Str → Bool
  | [], [] => false
  | [], _ :: _ => true
  | _ :: _, [] => false
  | a :: as, b :: bs =>
    if a.toNat < b.toNat then true
    else if b.toNat < a.toNat then false
    else strLtB as bs

/-- Lexicographic strict comparison of component lists, modelling `Ord` on
`PathBuf` (component-wise comparison). -/
def keyLtB : List Str → List Str → Bool
  | [], [] => false
  | [], _ :: _ => true
  | _ :: _, [] => false
  | a :: as, b :: bs =>
    if strLtB a b then true
    else if strLtB b a then false
    else keyLtB as bs

/-- The sort key of an entry: its path components. -/
def pathKey (e : FSEntry) : List Str := e.components

/-- Stable insertion of an entry into a key-sorted list. -/
def insertEntry (x : FSEntry) : List FSEntry → List FSEntry
  | [] => [x]
  | y :: ys => if keyLtB (pathKey y) (pathKey x) then y :: insertEntry x ys else x :: y :: ys

/-- Stable sort by path, modelling `Vec::sort_by_key(|e| e.path().to_path_buf())`. -/
def sortEntries (l : List FSEntry) : List FSEntry := l.foldr insertEntry []

/-! ### Text processor (src/text_processor/processor.rs) -/

/-- Models `TextProcessor::process_file`.  In the Rust code every branch
returns `Ok`, so only the payload (`Option<String>`) is modelled:
`some content` = a decoded text file, `none` = binary / unreadable /
undecodable (the Rust `Ok(None)`). -/
def process_file (e : FSEntry) : Option Str :=
  match is_text_file (rustExtension (basenameOf e)) e.bytes with
  | some true =>
    match e.bytes with
    | some bs => utf8Decode bs
    | none => none
  | some false => none
  | none =>
    match e.bytes with
    | some bs => if is_text bs then utf8Decode bs else none
    | none => none

/-! ### Aggregation pipeline (src/file_processor.rs) -/

/-- What one dispatched task contributes, per `process_file_parallel`:
`notFile` (`!path.is_file()`), `metaErr` (metadata lookup failed, reported
as a per-file error), `tooLarge` (over the size limit), `searchExcluded`
(text file rejected by the search filter), `textIncluded` (text file with
its buffer contribution), or `binarySkip` (the `Ok(None)` branch, which
increments the binary counter). -/
inductive Outcome where
  | notFile
  | metaErr
  | tooLarge
  | searchExcluded
  | textIncluded (chunks : List Str)
  | binarySkip
deriving DecidableEq

/-- The buffer contribution of an outcome. -/
def sectionOf : Outcome → List Str
  | .textIncluded cs => cs
  | _ => []

/-- Does the outcome increment `text_count`? -/
def countsText : Outcome → Bool
  | .textIncluded _ => true
  | _ => false

/-- Does the outcome increment `binary_count`? -/
def countsBinary : Outcome → Bool
  | .binarySkip => true
  | _ => false

/-- Models `FileProcessor::process_file_parallel` for one entry. -/
def fileOutcome (cfg : Config) (e : FSEntry) : Outcome :=
  if e.isFile = false then .notFile
  else if e.metaOk = false then .metaErr
  else if cfg.max_size < e.size then .tooLarge
  else
    match process_file e with
    | some content =>
      let r := format_text_content cfg.search_text cfg.case_sensitive (pathStrOf e) content
      if r.1 then .textIncluded r.2 else .searchExcluded
    | none => .binarySkip

/-- One rendered line of the directory-tree listing
(`DirectoryTreeBuilder::build_directory_tree`). -/
def renderTreeEntry (e : FSEntry) : Str :=
  List.replicate (2 * e.depth) ' ' ++
    (if e.isDir then "📁 ".toList ++ basenameOf e ++ ['/']
     else "📄 ".toList ++ basenameOf e)

/-- Models `DirectoryTreeBuilder::build_directory_tree`: fails if the root
path does not exist, otherwise renders the filtered entries sorted by path.
(The tree walk has no depth bound in the source.) -/
def buildTree (cfg : Config) (fs : FS) : Except Str (List Str) :=
  if fs.rootExists = false then
    .error ("Path does not exist: ".toList ++ cfg.path)
  else
    .ok ((sortEntries (fs.entries.filter (should_include_in_tree cfg))).map renderTreeEntry)

/-- The file list in commit (dispatch) order: the collected files, sorted by
path when `--sort` is configured. -/
def dispatchList (cfg : Config) (fs : FS) : List FSEntry :=
  if cfg.sort then sortEntries (collect_files cfg fs) else collect_files cfg fs

/-- The per-task outcomes in dispatch order. -/
def outcomesOf (cfg : Config) (fs : FS) : List Outcome :=
  (dispatchList cfg fs).map (fileOutcome cfg)

/-- Models `FileProcessor::process`.  The rayon tasks append to the shared
buffer under a mutex in the order they complete; `sched` is that completion
order, as a list of indices into the dispatch list (a permutation of
`range n` for a real run).  `sinkOk` models whether the clipboard sink
accepts the finished document.  Returns the document chunks and the two
counters, or the run-aborting error. -/
def process (cfg : Config) (fs : FS) (sched : List Nat) (sinkOk : Bool) :
    Except Str (List Str × Nat × Nat) :=
  match buildTree cfg fs with
  | .error msg => .error msg
  | .ok treeChunks =>
    let outs := outcomesOf cfg fs
    let completed := sched.filterMap (fun i => outs.get? i)
    let body := (completed.map sectionOf).flatten
    let t := completed.countP countsText
    let b := completed.countP countsBinary
    let doc :=
      "=== DIRECTORY STRUCTURE ===".toList :: treeChunks ++
        "=== TEXT FILES ===".toList :: body ++
        ["=== SUMMARY ===".toList,
         "Text files processed: ".toList ++ numStr t,
         "Binary files skipped: ".toList ++ numStr b]
    if sinkOk then .ok (doc, t, b) else .error "Failed to copy to clipboard".toList

/-- The counters of a completed run, with the document dropped. -/
def runCounts (cfg : Config) (fs : FS) (sched : List Nat) (sinkOk : Bool) : Option (Nat × Nat) :=
  match process cfg fs sched sinkOk with
  | .ok r => some (r.2.1, r.2.2)
  | .error _ => none

/-- The document of a completed run, with the counters dropped. -/
def runDoc (cfg : Config) (fs : FS) (sched : List Nat) (sinkOk : Bool) : Option (List Str) :=
  match process cfg fs sched sinkOk with
  | .ok r => some r.1
  | .error _ => none

/-- The number of collected files skipped for exceeding the size limit
(reported only in verbose mode, counted in no summary counter). -/
def sizeSkipCount (cfg : Config) (fs : FS) : Nat :=
  (outcomesOf cfg fs).countP (fun o => o = Outcome.tooLarge)

/-- The identity schedule: tasks complete in dispatch order. -/
def idSched (n : Nat) : List Nat := List.range n

/-! ### Concrete inputs used by the counterexamples and witnesses -/

/-- `Config::default()` from cli.rs. -/
def baseConfig : Config :=
  { path := ".".toList, max_size := 10485760, verbose := false,
    max_depth := 4294967295, include_extensions := none, exclude_extensions := none,
    exclude_paths := none, pattern := none, skip_hidden := false, sort := false,
    search_text := none, case_sensitive := false }

/-- A readable one-byte text file `r/a.txt`. -/
def entA : FSEntry :=
  { components := ["r".toList, "a.txt".toList], depth := 1, isDir := false,
    isFile := true, metaOk := true, size := 1, bytes := some [65] }

/-- A readable one-byte text file `r/b.txt`. -/
def entB : FSEntry :=
  { components := ["r".toList, "b.txt".toList], depth := 1, isDir := false,
    isFile := true, metaOk := true, size := 1, bytes := some [66] }

/-- A filesystem whose enumeration order is `b.txt` before `a.txt`. -/
def fsBA : FS := { rootExists := true, entries := [entB, entA] }

/-- The configuration with deterministic ordering (`--sort`) enabled. -/
def sortConfig : Config :=
  { baseConfig with sort := true }

/-- A file with a text extension that cannot be opened or read. -/
def entUnreadable : FSEntry :=
  { components := ["r".toList, "u.txt".toList], depth := 1, isDir := false,
    isFile := true, metaOk := true, size := 1, bytes := none }

/-- A filesystem containing only the unreadable file. -/
def fsUnreadable : FS := { rootExists := true, entries := [entUnreadable] }

/-- A readable text file `r/h.txt` with content `hello`. -/
def entHello : FSEntry :=
  { components := ["r".toList, "h.txt".toList], depth := 1, isDir := false,
    isFile := true, metaOk := true, size := 5, bytes := some [104, 101, 108, 108, 111] }

/-- A filesystem containing only `r/h.txt`. -/
def fsHello : FS := { rootExists := true, entries := [entHello] }

/-- A configuration whose search query matches nothing in `fsHello`. -/
def searchZzzConfig : Config :=
  { baseConfig with search_text := some "zzz".toList }

/-- A 4096-byte sample of 100% printable ASCII starting with the `%PDF`
magic number. -/
def pdfAsciiSample : List Nat := [0x25, 0x50, 0x44, 0x46] ++ List.replicate 4092 0x61

/-- A configuration with `--no-hidden` and no other filters. -/
def hiddenSkipConfig : Config :=
  { baseConfig with skip_hidden := true }

/-- A non-hidden file inside a hidden directory: `.git/config`. -/
def entInsideHidden : FSEntry :=
  { components := [".git".toList, "config".toList], depth := 1, isDir := false,
    isFile := true, metaOk := true, size := 1, bytes := some [97] }

/-- A filesystem containing the hidden directory and the file inside it. -/
def fsInsideHidden : FS :=
  { rootExists := true,
    entries :=
      [{ components := [".git".toList], depth := 0, isDir := true, isFile := false,
         metaOk := true, size := 0, bytes := none },
       entInsideHidden] }

/-- A filesystem whose root path does not exist. -/
def fsMissing : FS := { rootExists := false, entries := [entA] }

/-- A ten-line file in which only line 5 matches the query `hello`
case-insensitively (the spec's end-to-end scenario 3). -/
def tenLines : List Str :=
  ["l1".toList, "l2".toList, "l3".toList, "l4".toList, "Hello World".toList,
   "l6".toList, "l7".toList, "l8".toList, "l9".toList, "l10".toList]

/-! ### Supporting lemmas: characters -/

/-- `Char.ofNat` of a small code point round-trips through `toNat`. -/
theorem toNat_ofNat_small (n : Nat) (h : n < 55296) : (Char.ofNat n).toNat = n := by
  have hv : n.isValidChar := Or.inl h
  simp [Char.ofNat, hv, Char.ofNatAux, Char.toNat, UInt32.toNat, BitVec.toNat_ofNatLt]

/-- ASCII lowercasing fixes every character outside both the uppercase and
lowercase letter ranges: mapping to such a character is the identity there. -/
theorem lowerChar_eq_iff (c d : Char) (hd : d.toNat < 65 ∨ 90 < d.toNat)
    (hd2 : d.toNat < 97 ∨ 122 < d.toNat) : lowerChar c = d ↔ c = d := by
  unfold lowerChar
  split
  · rename_i h
    constructor
    · intro he
      have h2 : (Char.ofNat (c.toNat + 32)).toNat = c.toNat + 32 :=
        toNat_ofNat_small _ (by omega)
      rw [he] at h2
      omega
    · intro he
      subst he
      omega
  · exact Iff.rfl

/-- Characters with equal code points are equal. -/
theorem char_toNat_inj {c d : Char} (h : c.toNat = d.toNat) : c = d := by
  apply Char.eq_of_val_eq
  have h2 : c.val.toBitVec.toNat = d.val.toBitVec.toNat := h
  have h3 : c.val.toBitVec = d.val.toBitVec := BitVec.eq_of_toNat_eq h2
  cases hc : c.val with
  | mk bc =>
    cases hd : d.val with
    | mk bd =>
      rw [hc, hd] at h3
      simp at h3
      rw [h3]

/-! ### Supporting lemmas: substring containment -/

/-- `infixAt` decides contiguous-substring occurrence. -/
theorem infixAt_eq_true_iff (q : Str) : ∀ hay : Str, infixAt q hay = true ↔ q <:+: hay := by
  intro hay
  induction hay with
  | nil =>
    simp [infixAt, List.isPrefixOf_iff_prefix]
  | cons c rest ih =>
    simp only [infixAt, Bool.or_eq_true, List.isPrefixOf_iff_prefix, ih]
    rw [List.infix_cons_iff]

/-- `strContains` decides contiguous-substring occurrence. -/
theorem strContains_iff (hay q : Str) : strContains hay q = true ↔ q <:+: hay :=
  infixAt_eq_true_iff q hay

/-- A prefix of `a ++ c :: b` avoiding the character `c` is a prefix of `a`. -/
theorem prefix_through_char {c : Char} {b : Str} :
    ∀ (q a : Str), q <+: (a ++ c :: b) → c ∉ q → q <+: a
  | [], _, _, _ => List.nil_prefix
  | q0 :: q', [], h, hc => by
    rw [List.nil_append, List.cons_prefix_cons] at h
    exact absurd (h.1 ▸ List.mem_cons_self q0 q') hc
  | q0 :: q', a0 :: a', h, hc => by
    rw [List.cons_append, List.cons_prefix_cons] at h
    rw [List.cons_prefix_cons]
    refine ⟨h.1, prefix_through_char q' a' h.2 (fun hm => hc (List.mem_cons_of_mem _ hm))⟩

/-- A nonempty substring of `a ++ c :: b` avoiding the character `c` lies
entirely inside `a` or entirely inside `b`. -/
theorem sub_through_char {q : Str} {c : Char} (hc : c ∉ q) (hq : q ≠ []) {b : Str} :
    ∀ a : Str, q <:+: (a ++ c :: b) → q <:+: a ∨ q <:+: b
  | [], h => by
    rw [List.nil_append] at h
    rcases List.infix_cons_iff.mp h with hp | hi
    · cases q with
      | nil => exact absurd rfl hq
      | cons q0 q' =>
        rw [List.cons_prefix_cons] at hp
        exact absurd (hp.1 ▸ List.mem_cons_self q0 q') hc
    · exact Or.inr hi
  | a0 :: a', h => by
    rw [List.cons_append] at h
    rcases List.infix_cons_iff.mp h with hp | hi
    · exact Or.inl (prefix_through_char q (a0 :: a') (by simpa using hp) hc).isInfix
    · rcases sub_through_char hc hq a' hi with h1 | h2
      · exact Or.inl (List.infix_cons h1)
      · exact Or.inr h2

/-- A nonempty substring avoiding `'\r'` survives `trimCr`. -/
theorem sub_trimCr {q l : Str} (h : q <:+: l) (hcr : '\r' ∉ q) (hq : q ≠ []) :
    q <:+: trimCr l := by
  unfold trimCr
  split
  · rename_i hlast
    have hdec : l.dropLast ++ ['\r'] = l := List.dropLast_append_getLast? _ hlast
    rw [← hdec] at h
    rcases sub_through_char hcr hq l.dropLast h with h1 | h2
    · exact h1
    · exact absurd (List.infix_nil.mp h2) hq
  · exact h

/-! ### Supporting lemmas: `rustLines` -/

/-- Any nonempty line-break-free substring of the remaining input (prefixed
by the pending chunk) survives into one of the produced lines. -/
theorem rustLinesGo_has {q : Str} (hq : q ≠ []) (hnl : '\n' ∉ q) (hcr : '\r' ∉ q) :
    ∀ (s acc : Str), q <:+: (acc.reverse ++ s) → ∃ l, l ∈ rustLinesGo acc s ∧ q <:+: l
  | [], acc, h => ⟨acc.reverse, by simp [rustLinesGo], by simpa using h⟩
  | c :: cs, acc, h => by
    by_cases hc : c = '\n'
    · subst hc
      rcases sub_through_char hnl hq acc.reverse h with h1 | h2
      · exact ⟨trimCr acc.reverse, by simp [rustLinesGo], sub_trimCr h1 hcr hq⟩
      · have hcs : cs ≠ [] := by
          rintro rfl
          exact hq (List.infix_nil.mp h2)
        obtain ⟨l, hl, hql⟩ :=
          rustLinesGo_has hq hnl hcr cs [] (by simpa using h2)
        refine ⟨l, ?_, hql⟩
        simp [rustLinesGo, List.isEmpty_iff, hcs]
        exact Or.inr hl
    · have harr : acc.reverse ++ c :: cs = (c :: acc).reverse ++ cs := by simp
      rw [harr] at h
      obtain ⟨l, hl, hql⟩ := rustLinesGo_has hq hnl hcr cs (c :: acc) h
      exact ⟨l, by simpa [rustLinesGo, hc] using hl, hql⟩

/-- Any nonempty line-break-free substring of the content occurs inside one
of its `rustLines`. -/
theorem rustLines_has {q content : Str} (hq : q ≠ []) (hnl : '\n' ∉ q) (hcr : '\r' ∉ q)
    (h : q <:+: content) : ∃ l, l ∈ rustLines content ∧ q <:+: l := by
  have hc : content ≠ [] := by
    rintro rfl
    exact hq (List.infix_nil.mp h)
  unfold rustLines
  rw [if_neg (by simpa [List.isEmpty_iff] using hc)]
  exact rustLinesGo_has hq hnl hcr content [] (by simpa using h)

/-! ### Supporting lemmas: lowercasing commutes with line splitting -/

/-- Lowercasing preserves being the newline character. -/
theorem lowerChar_eq_nl (c : Char) : lowerChar c = '\n' ↔ c = '\n' :=
  lowerChar_eq_iff c '\n' (by decide) (by decide)

/-- Lowercasing preserves being the carriage-return character. -/
theorem lowerChar_eq_cr (c : Char) : lowerChar c = '\r' ↔ c = '\r' :=
  lowerChar_eq_iff c '\r' (by decide) (by decide)

/-- `trimCr` commutes with lowercasing. -/
theorem trimCr_lower (l : Str) : trimCr (lowerStr l) = lowerStr (trimCr l) := by
  unfold trimCr lowerStr
  rw [List.getLast?_map]
  by_cases h : l.getLast? = some '\r'
  · rw [h]
    simp [List.map_dropLast, show lowerChar '\r' = '\r' from by decide]
  · have h2 : ¬ (l.getLast?.map lowerChar = some '\r') := by
      intro hm
      rcases hx : l.getLast? with _ | x
      · rw [hx] at hm
        simp at hm
      · rw [hx] at hm
        simp at hm
        exact h (by rw [hx, (lowerChar_eq_cr x).mp hm])
    rw [if_neg h2, if_neg h]

/-- The `rustLines` worker commutes with lowercasing. -/
theorem rustLinesGo_lower : ∀ (s acc : Str),
    rustLinesGo (lowerStr acc) (lowerStr s) = (rustLinesGo acc s).map lowerStr
  | [], acc => by simp [rustLinesGo, lowerStr, List.map_reverse]
  | c :: cs, acc => by
    by_cases hc : c = '\n'
    · subst hc
      have h1 : lowerStr ('\n' :: cs) = '\n' :: lowerStr cs := by
        simp [lowerStr, show lowerChar '\n' = '\n' from by decide]
      rw [h1]
      have h2 : ∀ (A B : Str),
          rustLinesGo A ('\n' :: B) =
            trimCr A.reverse :: (if B.isEmpty then [] else rustLinesGo [] B) :=
        fun A B => rfl
      rw [h2, h2, List.map_cons]
      have h3 : trimCr (lowerStr acc).reverse = lowerStr (trimCr acc.reverse) := by
        rw [show (lowerStr acc).reverse = lowerStr acc.reverse from by
              simp [lowerStr, List.map_reverse],
          trimCr_lower]
      rw [h3]
      congr 1
      by_cases hcs : cs = []
      · subst hcs
        simp [lowerStr]
      · rw [if_neg (by simpa [List.isEmpty_iff, lowerStr] using hcs),
          if_neg (by simpa [List.isEmpty_iff] using hcs)]
        have hrec := rustLinesGo_lower cs []
        rw [show (lowerStr [] : Str) = [] from rfl] at hrec
        rw [hrec]
    · have h1 : lowerStr (c :: cs) = lowerChar c :: lowerStr cs := by
        simp [lowerStr]
      rw [h1]
      have hlc : ¬ (lowerChar c = '\n') := fun hm => hc ((lowerChar_eq_nl c).mp hm)
      have h2 : rustLinesGo (lowerStr acc) (lowerChar c :: lowerStr cs) =
          rustLinesGo (lowerChar c :: lowerStr acc) (lowerStr cs) := by
        simp only [rustLinesGo]
        rw [if_neg hlc]
      have h4 : rustLinesGo acc (c :: cs) = rustLinesGo (c :: acc) cs := by
        simp only [rustLinesGo]
        rw [if_neg hc]
      rw [h2, h4]
      have hrec := rustLinesGo_lower cs (c :: acc)
      rw [show lowerStr (c :: acc) = lowerChar c :: lowerStr acc from by simp [lowerStr]] at hrec
      rw [hrec]

/-- `rustLines` commutes with lowercasing. -/
theorem rustLines_lower (content : Str) :
    rustLines (lowerStr content) = (rustLines content).map lowerStr := by
  unfold rustLines
  by_cases h : content = []
  · subst h
    simp [lowerStr]
  · rw [if_neg (by simpa [List.isEmpty_iff, lowerStr] using h),
      if_neg (by simpa [List.isEmpty_iff] using h)]
    have := rustLinesGo_lower content []
    simpa [lowerStr] using this

/-- The empty string is contained in every string. -/
theorem strContains_nil : ∀ hay : Str, strContains hay [] = true := by
  intro hay
  cases hay <;> simp [strContains, infixAt, List.isPrefixOf]

/-- If the whole-content search check succeeds for a query free of line
breaks, some individual line matches the per-line check. -/
theorem content_match_has_line (caseSensitive : Bool) (q content : Str) (hq : q ≠ [])
    (hnl : '\n' ∉ q) (hcr : '\r' ∉ q)
    (h : (if caseSensitive then strContains content q
          else strContains (lowerStr content) (lowerStr q)) = true) :
    ∃ l, l ∈ rustLines content ∧ lineMatches caseSensitive q l = true := by
  cases caseSensitive with
  | true =>
    rw [if_pos rfl] at h
    obtain ⟨l, hl, hql⟩ := rustLines_has hq hnl hcr ((strContains_iff _ _).mp h)
    exact ⟨l, hl, by simpa [lineMatches] using (strContains_iff _ _).mpr hql⟩
  | false =>
    rw [if_neg (by simp)] at h
    have hq2 : lowerStr q ≠ [] := by
      simpa [lowerStr] using hq
    have hnl2 : '\n' ∉ lowerStr q := by
      intro hm
      obtain ⟨x, hx, hlx⟩ := List.mem_map.mp hm
      rw [← (lowerChar_eq_nl x).mp hlx] at hnl
      exact hnl hx
    have hcr2 : '\r' ∉ lowerStr q := by
      intro hm
      obtain ⟨x, hx, hlx⟩ := List.mem_map.mp hm
      rw [← (lowerChar_eq_cr x).mp hlx] at hcr
      exact hcr hx
    obtain ⟨l2, hl2, hql2⟩ := rustLines_has hq2 hnl2 hcr2 ((strContains_iff _ _).mp h)
    rw [rustLines_lower] at hl2
    obtain ⟨l, hl, rfl⟩ := List.mem_map.mp hl2
    exact ⟨l, hl, by simpa [lineMatches] using (strContains_iff _ _).mpr hql2⟩

/-! ### Supporting lemmas: the excerpt pipeline -/

/-- A fold that appends a chunk per accepted element produces the flattened
chunk list. -/
theorem foldl_if_append {α β : Type} (m : α → Bool) (g : α → List β) :
    ∀ (l : List α) (init : List β),
      l.foldl (fun acc p => if m p then acc ++ g p else acc) init
        = init ++ (l.map (fun p => if m p then g p else [])).flatten := by
  intro l
  induction l with
  | nil => intro init; simp
  | cons a t ih =>
    intro init
    rw [List.foldl_cons, ih, List.map_cons, List.flatten_cons]
    by_cases hm : m a = true
    · rw [if_pos hm, if_pos hm, List.append_assoc]
    · rw [if_neg hm, if_neg hm, List.nil_append]

/-- `collectFound` as a flattened list of per-match chunks. -/
theorem collectFound_eq_flatten (caseSensitive : Bool) (q : Str) (lines : List Str) :
    collectFound caseSensitive q lines =
      (lines.enum.map (fun p =>
        if lineMatches caseSensitive q p.2 then
          windowOf lines p.1 ++ [(SENTINEL, "...".toList)]
        else [])).flatten := by
  have h := foldl_if_append (fun p => lineMatches caseSensitive q p.2)
    (fun p : Nat × Str => windowOf lines p.1 ++ [(SENTINEL, "...".toList)]) lines.enum []
  simpa [collectFound] using h

/-- `specCollect` as a flattened list of per-match chunks. -/
theorem specCollect_eq_flatten (caseSensitive : Bool) (q : Str) (lines : List Str) :
    specCollect caseSensitive q lines =
      (lines.enum.map (fun p =>
        if lineMatches caseSensitive q p.2 then windowOf lines p.1 else [])).flatten := by
  have h := foldl_if_append (fun p => lineMatches caseSensitive q p.2)
    (fun p : Nat × Str => windowOf lines p.1) lines.enum []
  simpa [specCollect] using h

/-- Keys of window entries are valid line indices. -/
theorem windowOf_key_lt {lines : List Str} {i : Nat} (hi : i < lines.length) :
    ∀ p ∈ windowOf lines i, p.1 < lines.length := by
  intro p hp
  unfold windowOf at hp
  obtain ⟨j, hj, rfl⟩ := List.mem_map.mp hp
  obtain ⟨k, hk, rfl⟩ := List.mem_range'.mp hj
  omega

/-- Indices in `lines.enum` are valid line indices. -/
theorem enum_fst_lt {lines : List Str} {p : Nat × Str} (hp : p ∈ lines.enum) :
    p.1 < lines.length := by
  obtain ⟨i, x⟩ := p
  rw [List.mk_mem_enum_iff_getElem?] at hp
  exact (List.getElem?_eq_some.mp hp).1

/-- Every entry of `collectFound` is either a window entry with a valid line
index or the sentinel separator pair. -/
theorem mem_collectFound {caseSensitive : Bool} {q : Str} {lines : List Str}
    {p : Nat × Str} (hp : p ∈ collectFound caseSensitive q lines) :
    p.1 < lines.length ∨ p = (SENTINEL, "...".toList) := by
  rw [collectFound_eq_flatten] at hp
  obtain ⟨chunk, hchunk, hpc⟩ := List.mem_flatten.mp hp
  obtain ⟨pe, hpe, rfl⟩ := List.mem_map.mp hchunk
  by_cases hm : lineMatches caseSensitive q pe.2 = true
  · rw [if_pos hm] at hpc
    rcases List.mem_append.mp hpc with hw | hs
    · exact Or.inl (windowOf_key_lt (enum_fst_lt hpe) p hw)
    · exact Or.inr (by simpa using hs)
  · rw [if_neg hm] at hpc
    simp at hpc

/-- Every entry of `specCollect` is a window entry with a valid line index. -/
theorem mem_specCollect {caseSensitive : Bool} {q : Str} {lines : List Str}
    {p : Nat × Str} (hp : p ∈ specCollect caseSensitive q lines) :
    p.1 < lines.length := by
  rw [specCollect_eq_flatten] at hp
  obtain ⟨chunk, hchunk, hpc⟩ := List.mem_flatten.mp hp
  obtain ⟨pe, hpe, rfl⟩ := List.mem_map.mp hchunk
  by_cases hm : lineMatches caseSensitive q pe.2 = true
  · rw [if_pos hm] at hpc
    exact windowOf_key_lt (enum_fst_lt hpe) p hpc
  · rw [if_neg hm] at hpc
    simp at hpc

/-- Membership is preserved by `insertByKey`. -/
theorem mem_insertByKey {p x : Nat × Str} :
    ∀ {l : List (Nat × Str)}, p ∈ insertByKey x l ↔ p = x ∨ p ∈ l
  | [] => by simp [insertByKey]
  | y :: ys => by
    unfold insertByKey
    by_cases h : x.1 ≤ y.1
    · rw [if_pos h]
      simp
    · rw [if_neg h]
      rw [List.mem_cons, List.mem_cons, mem_insertByKey]
      tauto

/-- Membership is preserved by `sortByKey`. -/
theorem mem_sortByKey {p : Nat × Str} :
    ∀ {l : List (Nat × Str)}, p ∈ sortByKey l ↔ p ∈ l
  | [] => by simp [sortByKey]
  | x :: t => by
    show p ∈ insertByKey x (sortByKey t) ↔ _
    rw [mem_insertByKey, mem_sortByKey, List.mem_cons]

/-- Inserting an element no larger than everything in the tail block keeps
the tail block at the end. -/
theorem insertByKey_append {x : Nat × Str} {R : List (Nat × Str)}
    (hle : ∀ r ∈ R, x.1 ≤ r.1) :
    ∀ A : List (Nat × Str), insertByKey x (A ++ R) = insertByKey x A ++ R
  | [] => by
    cases R with
    | nil => rfl
    | cons r R2 =>
      show insertByKey x (r :: R2) = [x] ++ (r :: R2)
      unfold insertByKey
      rw [if_pos (hle r (List.mem_cons_self r R2))]
      rfl
  | a :: A2 => by
    show insertByKey x (a :: (A2 ++ R)) = insertByKey x (a :: A2) ++ R
    unfold insertByKey
    by_cases h : x.1 ≤ a.1
    · rw [if_pos h, if_pos h]
      rfl
    · rw [if_neg h, if_neg h, List.cons_append, insertByKey_append hle A2]

/-- Inserting the sentinel pair after smaller keys extends the sentinel
block. -/
theorem insertByKey_sentinel {d : Str} :
    ∀ (A : List (Nat × Str)), (∀ a ∈ A, a.1 < SENTINEL) → ∀ kk : Nat,
      insertByKey (SENTINEL, d) (A ++ List.replicate kk (SENTINEL, d)) =
        A ++ List.replicate (kk + 1) (SENTINEL, d)
  | [], _, kk => by
    cases kk with
    | zero => rfl
    | succ j =>
      show insertByKey (SENTINEL, d) ((SENTINEL, d) :: List.replicate j (SENTINEL, d)) = _
      unfold insertByKey
      rw [if_pos (le_refl _)]
      rfl
  | a :: A2, hA, kk => by
    have ha : a.1 < SENTINEL := hA a (List.mem_cons_self a A2)
    show insertByKey (SENTINEL, d) (a :: (A2 ++ _)) = _
    unfold insertByKey
    rw [if_neg (by omega)]
    rw [insertByKey_sentinel A2 (fun b hb => hA b (List.mem_cons_of_mem a hb)) kk]
    rfl

/-- Sorting a list of window entries and sentinel pairs separates the
sentinels into a trailing block. -/
theorem sortByKey_split {d : Str} :
    ∀ l : List (Nat × Str), (∀ p ∈ l, p.1 < SENTINEL ∨ p = (SENTINEL, d)) →
      sortByKey l =
        sortByKey (l.filter (fun p => p.1 < SENTINEL)) ++
          List.replicate (l.countP (fun p => p.1 = SENTINEL)) (SENTINEL, d)
  | [], _ => rfl
  | x :: t, hl => by
    have ht : ∀ p ∈ t, p.1 < SENTINEL ∨ p = (SENTINEL, d) :=
      fun p hp => hl p (List.mem_cons_of_mem x hp)
    have hrec := sortByKey_split t ht
    show insertByKey x (sortByKey t) = _
    rcases hl x (List.mem_cons_self x t) with hx | hx
    · rw [hrec]
      rw [insertByKey_append
        (by
          intro r hr
          rw [List.mem_replicate] at hr
          rw [hr.2]
          omega)]
      have hfil : (x :: t).filter (fun p => p.1 < SENTINEL) =
          x :: t.filter (fun p => p.1 < SENTINEL) := by
        rw [List.filter_cons, if_pos (by simpa using hx)]
      have hcnt : (x :: t).countP (fun p => p.1 = SENTINEL) =
          t.countP (fun p => p.1 = SENTINEL) := by
        rw [List.countP_cons, if_neg (by simp; omega)]
        omega
      rw [hfil, hcnt]
      rfl
    · subst hx
      rw [hrec]
      rw [insertByKey_sentinel (sortByKey (t.filter (fun p => p.1 < SENTINEL)))
        (by
          intro a ha
          have h1 := mem_sortByKey.mp ha
          have h2 := List.of_mem_filter h1
          simpa using h2)]
      have hfil : ((SENTINEL, d) :: t).filter (fun p => p.1 < SENTINEL) =
          t.filter (fun p => p.1 < SENTINEL) := by
        rw [List.filter_cons, if_neg (by simp)]
      have hcnt : ((SENTINEL, d) :: t).countP (fun p => p.1 = SENTINEL) =
          t.countP (fun p => p.1 = SENTINEL) + 1 := by
        rw [List.countP_cons, if_pos (by simp)]
      rw [hfil, hcnt]

/-- Membership is reflected by the `dedupGo` worker. -/
theorem mem_dedupGo {p : Nat × Str} :
    ∀ {l : List (Nat × Str)} {prev : Nat}, p ∈ dedupGo prev l → p ∈ l
  | [], _, h => by simp [dedupGo] at h
  | y :: rest, prev, h => by
    unfold dedupGo at h
    by_cases hy : y.1 = prev
    · rw [if_pos hy] at h
      exact List.mem_cons_of_mem y (mem_dedupGo h)
    · rw [if_neg hy] at h
      rcases List.mem_cons.mp h with h1 | h2
      · exact h1 ▸ List.mem_cons_self y rest
      · exact List.mem_cons_of_mem y (mem_dedupGo h2)

/-- Membership is reflected by `dedupByKey`. -/
theorem mem_dedupByKey {p : Nat × Str} {l : List (Nat × Str)}
    (h : p ∈ dedupByKey l) : p ∈ l := by
  cases l with
  | nil => simp [dedupByKey] at h
  | cons x rest =>
    rcases List.mem_cons.mp h with h1 | h2
    · exact h1 ▸ List.mem_cons_self x rest
    · exact List.mem_cons_of_mem x (mem_dedupGo h2)

/-- A run of sentinel pairs collapses to nothing once a sentinel has been
kept. -/
theorem dedupGo_replicate (d : Str) :
    ∀ kk : Nat, dedupGo SENTINEL (List.replicate kk (SENTINEL, d)) = []
  | 0 => rfl
  | kk + 1 => by
    show dedupGo SENTINEL ((SENTINEL, d) :: List.replicate kk (SENTINEL, d)) = []
    unfold dedupGo
    rw [if_pos rfl]
    exact dedupGo_replicate d kk

/-- Deduplicating a block of non-sentinel entries followed by a nonempty run
of sentinel pairs keeps exactly one sentinel pair at the end. -/
theorem dedupGo_split {d : Str} :
    ∀ (A : List (Nat × Str)) (prev kk : Nat),
      (∀ a ∈ A, a.1 ≠ SENTINEL) → prev ≠ SENTINEL →
      dedupGo prev (A ++ List.replicate (kk + 1) (SENTINEL, d)) =
        dedupGo prev A ++ [(SENTINEL, d)]
  | [], prev, kk, _, hprev => by
    show dedupGo prev ((SENTINEL, d) :: List.replicate kk (SENTINEL, d)) = _
    unfold dedupGo
    rw [if_neg (fun hs => hprev hs.symm)]
    rw [dedupGo_replicate d kk]
    rfl
  | a :: A2, prev, kk, hA, hprev => by
    have ha : a.1 ≠ SENTINEL := hA a (List.mem_cons_self a A2)
    have hA2 : ∀ b ∈ A2, b.1 ≠ SENTINEL := fun b hb => hA b (List.mem_cons_of_mem a hb)
    show dedupGo prev (a :: (A2 ++ _)) = dedupGo prev (a :: A2) ++ _
    unfold dedupGo
    by_cases hy : a.1 = prev
    · rw [if_pos hy, if_pos hy]
      exact dedupGo_split A2 prev kk hA2 hprev
    · rw [if_neg hy, if_neg hy, List.cons_append]
      rw [dedupGo_split A2 a.1 kk hA2 ha]

/-- `dedupByKey` on a nonempty non-sentinel block followed by sentinels. -/
theorem dedupByKey_split {d : Str} {A : List (Nat × Str)}
    (hA : ∀ a ∈ A, a.1 ≠ SENTINEL) (hne : A ≠ []) (kk : Nat) :
    dedupByKey (A ++ List.replicate (kk + 1) (SENTINEL, d)) =
      dedupByKey A ++ [(SENTINEL, d)] := by
  cases A with
  | nil => exact absurd rfl hne
  | cons a A2 =>
    show a :: dedupGo a.1 (A2 ++ _) = (a :: dedupGo a.1 A2) ++ _
    rw [dedupGo_split A2 a.1 kk (fun b hb => hA b (List.mem_cons_of_mem a hb))
      (hA a (List.mem_cons_self a A2))]
    rfl

/-- Emitting a list that ends with a single trailing sentinel entry emits the
sentinel-free part followed by one `"..."` line. -/
theorem emitLoop_append_sentinel {d : Str} :
    ∀ (Y : List (Nat × Str)) (prevIdx : Nat) (first : Bool),
      (∀ p ∈ Y, p.1 ≠ SENTINEL) →
      emitLoop prevIdx first (Y ++ [(SENTINEL, d)]) =
        emitLoop prevIdx first Y ++ ["...".toList]
  | [], prevIdx, first, _ => by
    show emitLoop prevIdx first [(SENTINEL, d)] = _
    unfold emitLoop
    rw [if_pos rfl]
    rfl
  | p :: Y2, prevIdx, first, hY => by
    have hp : p.1 ≠ SENTINEL := hY p (List.mem_cons_self p Y2)
    have hY2 : ∀ b ∈ Y2, b.1 ≠ SENTINEL := fun b hb => hY b (List.mem_cons_of_mem p hb)
    show emitLoop prevIdx first (p :: (Y2 ++ _)) = emitLoop prevIdx first (p :: Y2) ++ _
    unfold emitLoop
    rw [if_neg hp, if_neg hp]
    rw [emitLoop_append_sentinel Y2 p.1 false hY2]
    by_cases hgap : first = false ∧ prevIdx + 1 < p.1
    · rw [if_pos hgap]
      simp
    · rw [if_neg hgap]
      simp

/-- The filtered `collectFound` is exactly `specCollect` (on files with at
most `usize::MAX` lines, which is every real file). -/
theorem filter_collectFound (caseSensitive : Bool) (q : Str) (lines : List Str)
    (hlen : lines.length ≤ SENTINEL) :
    (collectFound caseSensitive q lines).filter (fun p => p.1 < SENTINEL) =
      specCollect caseSensitive q lines := by
  rw [collectFound_eq_flatten, specCollect_eq_flatten, List.filter_flatten, List.map_map]
  congr 1
  apply List.map_congr_left
  intro p hp
  by_cases hm : lineMatches caseSensitive q p.2 = true
  · simp only [Function.comp_apply, if_pos hm]
    rw [List.filter_append]
    have h1 : (windowOf lines p.1).filter (fun x => x.1 < SENTINEL) = windowOf lines p.1 := by
      rw [List.filter_eq_self]
      intro a ha
      have h2 := windowOf_key_lt (enum_fst_lt hp) a ha
      simp only [decide_eq_true_eq]
      omega
    have h2 : ([((SENTINEL : Nat), "...".toList)]).filter
        (fun x : Nat × Str => x.1 < SENTINEL) = [] := by
      simp
    rw [h1, h2, List.append_nil]
  · simp only [Function.comp_apply, if_neg hm]
    simp

/-- With at least one matching line, the code's excerpt is the
specification's excerpt followed by one extra trailing `"..."` line. -/
theorem searchExcerpt_eq_spec (caseSensitive : Bool) (q : Str) (lines : List Str)
    (hlen : lines.length ≤ SENTINEL)
    (hmatch : ∃ p, p ∈ lines.enum ∧ lineMatches caseSensitive q p.2 = true) :
    searchExcerpt caseSensitive q lines =
      specExcerpt caseSensitive q lines ++ ["...".toList] := by
  obtain ⟨pm, hpm, hm⟩ := hmatch
  have hpmlt : pm.1 < lines.length := enum_fst_lt hpm
  -- the sentinel block of the sorted list
  have hsplit := sortByKey_split (d := "...".toList) (collectFound caseSensitive q lines)
    (fun p hp => by
      rcases mem_collectFound hp with h | h
      · exact Or.inl (by omega)
      · exact Or.inr h)
  rw [filter_collectFound caseSensitive q lines hlen] at hsplit
  -- the sentinel count is positive
  have hsent : ((SENTINEL : Nat), "...".toList) ∈ collectFound caseSensitive q lines := by
    rw [collectFound_eq_flatten]
    apply List.mem_flatten_of_mem (l := windowOf lines pm.1 ++ [(SENTINEL, "...".toList)])
    · exact List.mem_map.mpr ⟨pm, hpm, by rw [if_pos hm]⟩
    · simp
  have hcntpos : 0 < (collectFound caseSensitive q lines).countP
      (fun p => p.1 = SENTINEL) := by
    rw [List.countP_pos_iff]
    exact ⟨_, hsent, by simp⟩
  obtain ⟨kk, hkk⟩ : ∃ kk, (collectFound caseSensitive q lines).countP
      (fun p => p.1 = SENTINEL) = kk + 1 := by
    rcases hn : (collectFound caseSensitive q lines).countP (fun p => p.1 = SENTINEL) with
      _ | kk
    · rw [hn] at hcntpos
      omega
    · exact ⟨kk, hn⟩
  rw [hkk] at hsplit
  -- the spec side is nonempty
  have hwmem : ((pm.1 - 3, lines.getD (pm.1 - 3) []) : Nat × Str) ∈ windowOf lines pm.1 := by
    unfold windowOf
    apply List.mem_map.mpr
    refine ⟨pm.1 - 3, ?_, rfl⟩
    apply List.mem_range'.mpr
    refine ⟨0, ?_, by omega⟩
    omega
  have hsmem : ((pm.1 - 3, lines.getD (pm.1 - 3) []) : Nat × Str) ∈
      specCollect caseSensitive q lines := by
    rw [specCollect_eq_flatten]
    apply List.mem_flatten_of_mem (l := windowOf lines pm.1)
    · exact List.mem_map.mpr ⟨pm, hpm, by rw [if_pos hm]⟩
    · exact hwmem
  have hsne : sortByKey (specCollect caseSensitive q lines) ≠ [] :=
    List.ne_nil_of_mem (mem_sortByKey.mpr hsmem)
  have hskeys : ∀ a ∈ sortByKey (specCollect caseSensitive q lines), a.1 ≠ SENTINEL := by
    intro a ha
    have h2 := mem_specCollect (mem_sortByKey.mp ha)
    omega
  unfold searchExcerpt specExcerpt
  rw [hsplit, dedupByKey_split hskeys hsne kk]
  apply emitLoop_append_sentinel
  intro p hp
  exact hskeys p (mem_dedupByKey hp)

/-! ### Supporting lemmas: the path order and the entry sort -/

/-- `strLtB` is asymmetric. -/
theorem strLtB_asymm : ∀ {a b : Str}, strLtB a b = true → strLtB b a = false
  | [], [] => by simp [strLtB]
  | [], _ :: _ => fun _ => by simp [strLtB]
  | _ :: _, [] => by simp [strLtB]
  | a :: as, b :: bs => by
    intro h
    unfold strLtB at h ⊢
    split at h
    · rename_i h1
      rw [if_neg (by omega), if_pos h1]
    · split at h
      · simp at h
      · rename_i h1 h2
        rw [if_neg h2, if_neg h1]
        exact strLtB_asymm h

/-- `strLtB` is connected: mutually non-smaller strings are equal. -/
theorem strLtB_conn : ∀ {a b : Str}, strLtB a b = false → strLtB b a = false → a = b
  | [], [] => fun _ _ => rfl
  | [], _ :: _ => by simp [strLtB]
  | _ :: _, [] => by
    intro _ h2
    simp [strLtB] at h2
  | a :: as, b :: bs => by
    intro h h2
    unfold strLtB at h h2
    split at h
    · simp at h
    · split at h
      · rename_i h1 hgt
        rw [if_pos hgt] at h2
        simp at h2
      · rename_i h1 hgt
        have hab : a = b := char_toNat_inj (by omega)
        subst hab
        rw [if_neg h1, if_neg h1] at h2
        rw [strLtB_conn h h2]

/-- `strLtB` is transitive. -/
theorem strLtB_trans : ∀ {a b c : Str}, strLtB a b = true → strLtB b c = true →
    strLtB a c = true
  | [], [], _ => by
    intro h
    simp [strLtB] at h
  | [], _ :: _, [] => by
    intro _ h2
    simp [strLtB] at h2
  | [], _ :: _, _ :: _ => fun _ _ => by simp [strLtB]
  | _ :: _, [], _ => by
    intro h
    simp [strLtB] at h
  | a :: as, b :: bs, [] => by
    intro _ h2
    simp [strLtB] at h2
  | a :: as, b :: bs, c :: cs => by
    intro h1 h2
    unfold strLtB at h1 h2 ⊢
    split at h1
    · rename_i hab
      split at h2
      · rename_i hbc
        rw [if_pos (by omega)]
      · split at h2
        · simp at h2
        · rename_i hbc hcb
          rw [if_pos (by omega)]
    · split at h1
      · simp at h1
      · rename_i hab hba
        split at h2
        · rename_i hbc
          rw [if_pos (by omega)]
        · split at h2
          · simp at h2
          · rename_i hbc hcb
            rw [if_neg (by omega), if_neg (by omega)]
            exact strLtB_trans h1 h2

/-- `keyLtB` is asymmetric. -/
theorem keyLtB_asymm : ∀ {a b : List Str}, keyLtB a b = true → keyLtB b a = false
  | [], [] => by simp [keyLtB]
  | [], _ :: _ => fun _ => by simp [keyLtB]
  | _ :: _, [] => by simp [keyLtB]
  | a :: as, b :: bs => by
    intro h
    unfold keyLtB at h ⊢
    split at h
    · rename_i h1
      rw [if_neg (by simp [strLtB_asymm h1]), if_pos h1]
    · split at h
      · simp at h
      · rename_i h1 h2
        rw [if_neg h2, if_neg h1]
        exact keyLtB_asymm h

/-- `keyLtB` is connected. -/
theorem keyLtB_conn : ∀ {a b : List Str}, keyLtB a b = false → keyLtB b a = false → a = b
  | [], [] => fun _ _ => rfl
  | [], _ :: _ => by simp [keyLtB]
  | _ :: _, [] => by
    intro _ h2
    simp [keyLtB] at h2
  | a :: as, b :: bs => by
    intro h h2
    unfold keyLtB at h h2
    split at h
    · simp at h
    · split at h
      · rename_i h1 hgt
        rw [if_pos hgt] at h2
        simp at h2
      · rename_i h1 hgt
        have hab : a = b := strLtB_conn (by simpa using h1) (by simpa using hgt)
        subst hab
        rw [if_neg h1, if_neg h1] at h2
        rw [keyLtB_conn h h2]

/-- `keyLtB` is transitive. -/
theorem keyLtB_trans : ∀ {a b c : List Str}, keyLtB a b = true → keyLtB b c = true →
    keyLtB a c = true
  | [], [], _ => by
    intro h
    simp [keyLtB] at h
  | [], _ :: _, [] => by
    intro _ h2
    simp [keyLtB] at h2
  | [], _ :: _, _ :: _ => fun _ _ => by simp [keyLtB]
  | _ :: _, [], _ => by
    intro h
    simp [keyLtB] at h
  | a :: as, b :: bs, [] => by
    intro _ h2
    simp [keyLtB] at h2
  | a :: as, b :: bs, c :: cs => by
    intro h1 h2
    unfold keyLtB at h1 h2 ⊢
    split at h1
    · rename_i hab
      split at h2
      · rename_i hbc
        rw [if_pos (strLtB_trans hab hbc)]
      · split at h2
        · simp at h2
        · rename_i hbc hcb
          have hbceq : b = c := strLtB_conn (by simpa using hbc) (by simpa using hcb)
          subst hbceq
          rw [if_pos hab]
    · split at h1
      · simp at h1
      · rename_i hab hba
        have habeq : a = b := strLtB_conn (by simpa using hab) (by simpa using hba)
        subst habeq
        split at h2
        · rename_i hac
          rw [if_pos hac]
        · split at h2
          · simp at h2
          · rename_i hac hca
            rw [if_neg hac, if_neg hca]
            exact keyLtB_trans h1 h2

/-- Membership is preserved by `insertEntry`. -/
theorem mem_insertEntry {z x : FSEntry} :
    ∀ {l : List FSEntry}, z ∈ insertEntry x l ↔ z = x ∨ z ∈ l
  | [] => by simp [insertEntry]
  | y :: ys => by
    unfold insertEntry
    by_cases h : keyLtB (pathKey y) (pathKey x) = true
    · rw [if_pos h]
      rw [List.mem_cons, List.mem_cons, mem_insertEntry]
      tauto
    · rw [if_neg h]
      simp

/-- `insertEntry` produces a permutation of consing. -/
theorem insertEntry_perm (x : FSEntry) :
    ∀ l : List FSEntry, (insertEntry x l).Perm (x :: l)
  | [] => List.Perm.refl _
  | y :: ys => by
    unfold insertEntry
    by_cases h : keyLtB (pathKey y) (pathKey x) = true
    · rw [if_pos h]
      exact ((insertEntry_perm x ys).cons y).trans (List.Perm.swap x y ys)
    · rw [if_neg h]

/-- `sortEntries` permutes its input. -/
theorem sortEntries_perm : ∀ l : List FSEntry, (sortEntries l).Perm l
  | [] => List.Perm.refl _
  | x :: t => by
    show (insertEntry x (sortEntries t)).Perm (x :: t)
    exact (insertEntry_perm x (sortEntries t)).trans ((sortEntries_perm t).cons x)

/-- The path-sortedness relation: `x` is at most `y` in path order. -/
def entryLe (x y : FSEntry) : Prop := keyLtB (pathKey y) (pathKey x) = false

/-- `insertEntry` preserves path-sortedness. -/
theorem insertEntry_pairwise (x : FSEntry) :
    ∀ {l : List FSEntry}, List.Pairwise entryLe l → List.Pairwise entryLe (insertEntry x l)
  | [], _ => by simp [insertEntry, List.pairwise_cons]
  | y :: ys, h => by
    rw [List.pairwise_cons] at h
    unfold insertEntry
    by_cases hlt : keyLtB (pathKey y) (pathKey x) = true
    · rw [if_pos hlt]
      rw [List.pairwise_cons]
      constructor
      · intro z hz
        rcases mem_insertEntry.mp hz with rfl | hz2
        · exact keyLtB_asymm hlt
        · exact h.1 z hz2
      · exact insertEntry_pairwise x h.2
    · rw [if_neg hlt]
      rw [List.pairwise_cons]
      constructor
      · intro z hz
        rcases List.mem_cons.mp hz with rfl | hz2
        · simpa [entryLe] using hlt
        · have hyz := h.1 z hz2
          unfold entryLe at hyz ⊢
          cases hzy : keyLtB (pathKey z) (pathKey x)
          · rfl
          · exfalso
            cases hyz2 : keyLtB (pathKey y) (pathKey z)
            · have hkeq := keyLtB_conn hyz hyz2
              rw [hkeq] at hzy
              exact hlt hzy
            · exact hlt (keyLtB_trans hyz2 hzy)
      · exact List.pairwise_cons.mpr h

/-- `sortEntries` produces a path-sorted list. -/
theorem sortEntries_pairwise : ∀ l : List FSEntry, List.Pairwise entryLe (sortEntries l)
  | [] => List.Pairwise.nil
  | x :: t => insertEntry_pairwise x (sortEntries_pairwise t)

/-! ### Supporting lemmas: schedules -/

/-- Recovering every element of a list through its index range. -/
theorem filterMap_get_range {α : Type} : ∀ l : List α,
    (List.range l.length).filterMap (fun i => l.get? i) = l
  | [] => rfl
  | a :: t => by
    rw [List.length_cons, List.range_succ_eq_map, List.filterMap_cons]
    have h0 : (a :: t).get? 0 = some a := rfl
    rw [h0, List.filterMap_map]
    have h2 : ((fun i => (a :: t).get? i) ∘ Nat.succ) = fun i => t.get? i := by
      funext i
      rfl
    rw [h2, filterMap_get_range t]

/-- A completion schedule that is a permutation of the index range delivers
a permutation of the outcome list. -/
theorem completed_perm {α : Type} (l : List α) (sched : List Nat)
    (hperm : sched.Perm (List.range l.length)) :
    (sched.filterMap (fun i => l.get? i)).Perm l := by
  have h := hperm.filterMap (fun i => l.get? i)
  rw [filterMap_get_range l] at h
  exact h

/-! ### Supporting lemmas: the run -/

/-- A run with a missing root aborts with the path error, for any schedule
and any sink. -/
theorem process_error_of_no_root (cfg : Config) (fs : FS) (sched : List Nat)
    (sinkOk : Bool) (hroot : fs.rootExists = false) :
    process cfg fs sched sinkOk =
      .error ("Path does not exist: ".toList ++ cfg.path) := by
  unfold process buildTree
  rw [hroot]
  simp

/-- A run with an existing root and an accepting sink completes, and its
result is determined by the scheduled outcome list. -/
theorem process_ok_form (cfg : Config) (fs : FS) (sched : List Nat)
    (hroot : fs.rootExists = true) :
    process cfg fs sched true =
      .ok
        ("=== DIRECTORY STRUCTURE ===".toList ::
            (sortEntries (fs.entries.filter (should_include_in_tree cfg))).map
              renderTreeEntry ++
            "=== TEXT FILES ===".toList ::
            ((sched.filterMap (fun i => (outcomesOf cfg fs).get? i)).map sectionOf).flatten ++
            ["=== SUMMARY ===".toList,
             "Text files processed: ".toList ++
               numStr ((sched.filterMap
                 (fun i => (outcomesOf cfg fs).get? i)).countP countsText),
             "Binary files skipped: ".toList ++
               numStr ((sched.filterMap
                 (fun i => (outcomesOf cfg fs).get? i)).countP countsBinary)],
         (sched.filterMap (fun i => (outcomesOf cfg fs).get? i)).countP countsText,
         (sched.filterMap (fun i => (outcomesOf cfg fs).get? i)).countP countsBinary) := by
  unfold process buildTree
  rw [hroot]
  simp

/-- Every dispatched entry is a collected file. -/
theorem mem_dispatchList {cfg : Config} {fs : FS} {e : FSEntry}
    (h : e ∈ dispatchList cfg fs) : e ∈ collect_files cfg fs := by
  unfold dispatchList at h
  by_cases hs : cfg.sort = true
  · rw [if_pos hs] at h
    exact (sortEntries_perm (collect_files cfg fs)).subset h
  · rw [if_neg hs] at h
    exact h

/-- The dispatch list has as many entries as the collected file list. -/
theorem dispatchList_length (cfg : Config) (fs : FS) :
    (dispatchList cfg fs).length = (collect_files cfg fs).length := by
  unfold dispatchList
  by_cases hs : cfg.sort = true
  · rw [if_pos hs]
    exact (sortEntries_perm (collect_files cfg fs)).length_eq
  · rw [if_neg hs]

/-- With no search query and readable metadata, every outcome is a counted
text file, a counted binary file, or a size-limit skip. -/
theorem fileOutcome_cases (cfg : Config) (e : FSEntry) (hs : cfg.search_text = none)
    (hf : e.isFile = true) (hm : e.metaOk = true) :
    countsText (fileOutcome cfg e) = true ∨ countsBinary (fileOutcome cfg e) = true ∨
      fileOutcome cfg e = Outcome.tooLarge := by
  unfold fileOutcome
  rw [hf, hm]
  rw [if_neg (by simp), if_neg (by simp)]
  by_cases hsz : cfg.max_size < e.size
  · rw [if_pos hsz]
    right; right; rfl
  · rw [if_neg hsz]
    cases hpf : process_file e with
    | none =>
      right; left; rfl
    | some content =>
      left
      rw [hs]
      simp [format_text_content, countsText]

/-- Outcomes that are each counted exactly once sum to the list length. -/
theorem countP_partition_outcomes : ∀ l : List Outcome,
    (∀ o ∈ l, countsText o = true ∨ countsBinary o = true ∨ o = Outcome.tooLarge) →
    l.countP countsText + l.countP countsBinary +
      l.countP (fun o => o = Outcome.tooLarge) = l.length
  | [], _ => rfl
  | o :: t, h => by
    have ht := countP_partition_outcomes t (fun x hx => h x (List.mem_cons_of_mem o hx))
    have ho := h o (List.mem_cons_self o t)
    cases o <;>
      simp [countsText, countsBinary, List.countP_cons] at ho ⊢ <;>
      omega

/-- A file that cannot be read, or whose bytes fail UTF-8 decoding after a
text classification, flows through the `Ok(None)` path. -/
theorem process_file_none_of_unreadable (e : FSEntry)
    (hbad : e.bytes = none ∨
      (is_text_file (rustExtension (basenameOf e)) e.bytes = some true ∧
        ∀ bs, e.bytes = some bs → utf8Decode bs = none)) :
    process_file e = none := by
  unfold process_file
  rcases hbad with hb | ⟨hit, hdec⟩
  · rw [hb]
    cases h2 : is_text_file (rustExtension (basenameOf e)) none with
    | none => rfl
    | some b => cases b <;> rfl
  · rw [hit]
    cases hbs : e.bytes with
    | none => rfl
    | some bs =>
      exact hdec bs hbs

/-- Such a file's task takes the binary-count branch. -/
theorem fileOutcome_binary_of_unreadable (cfg : Config) (e : FSEntry)
    (hf : e.isFile = true) (hm : e.metaOk = true) (hsz : e.size ≤ cfg.max_size)
    (hbad : e.bytes = none ∨
      (is_text_file (rustExtension (basenameOf e)) e.bytes = some true ∧
        ∀ bs, e.bytes = some bs → utf8Decode bs = none)) :
    fileOutcome cfg e = Outcome.binarySkip := by
  unfold fileOutcome
  rw [hf, hm]
  rw [if_neg (by simp), if_neg (by simp), if_neg (by omega)]
  rw [process_file_none_of_unreadable e hbad]

/-! ### Supporting lemmas: glob matching of literal patterns -/

/-- A pattern of literal tokens matches exactly the literal string, for any
adequate fuel. -/
theorem globMatchFuel_lits : ∀ (fuel : Nat) (cs s : Str), cs.length + s.length < fuel →
    (globMatchFuel fuel (cs.map GlobToken.lit) s = true ↔ s = cs)
  | 0, cs, s, h => by omega
  | fuel + 1, [], s, _ => by
    cases s <;> simp [globMatchFuel]
  | fuel + 1, c :: cs, [], _ => by
    simp [globMatchFuel]
  | fuel + 1, c :: cs, d :: s2, h => by
    show (globTokMatches (GlobToken.lit c) d && globMatchFuel fuel (cs.map GlobToken.lit) s2)
        = true ↔ _
    rw [Bool.and_eq_true]
    rw [globMatchFuel_lits fuel cs s2 (by simp at h ⊢; omega)]
    simp [globTokMatches]

/-- `globMatches` on the literal `NOMATCH` fallback pattern accepts exactly
the file name `NOMATCH`. -/
theorem globMatches_nomatch (name : Str) :
    globMatches nomatchPattern name = true ↔ name = "NOMATCH".toList := by
  unfold globMatches nomatchPattern
  rw [globMatchFuel_lits]
  simp

/-! ### Claim C1 -/

/-- C1 counterexample: with deterministic ordering (`--sort`) enabled, the
completion schedule `[1, 0]` is a valid schedule of the two collected files
of `fsBA`, yet the run's document differs from schedule `[0, 1]`'s: the
section of `r/b.txt` lands before that of `r/a.txt`, so the file-section
order is neither the lexicographic order of kept paths nor identical across
schedules, refuting the claim as stated. -/
theorem c1_counterexample :
    ([1, 0] : List Nat).Perm (List.range (outcomesOf sortConfig fsBA).length) ∧
    process sortConfig fsBA [1, 0] true ≠ process sortConfig fsBA [0, 1] true ∧
    runDoc sortConfig fsBA [1, 0] true =
      some ("=== DIRECTORY STRUCTURE ===".toList ::
        ["  📄 a.txt".toList, "  📄 b.txt".toList] ++
        "=== TEXT FILES ===".toList ::
        ["=== r/b.txt ===".toList, "B".toList, [],
         "=== r/a.txt ===".toList, "A".toList, []] ++
        ["=== SUMMARY ===".toList, "Text files processed: 2".toList,
         "Binary files skipped: 0".toList]) := by
  decide

/-- C1 (amended): with deterministic ordering enabled, the dispatch (commit)
order is sorted lexicographically by path, and for every completion
schedule the counters equal those of the in-dispatch-order schedule and the
document is a permutation (chunk multiset) of the in-order document; under
the identity schedule the scheduled outcomes are exactly the dispatch-order
outcomes, so only then is the section order the lexicographic order —
sections land in the buffer in completion order, not in a fixed commit
slot. -/
theorem c1_amended (cfg : Config) (fs : FS) (sched : List Nat)
    (hsort : cfg.sort = true) (hroot : fs.rootExists = true)
    (hperm : sched.Perm (List.range (outcomesOf cfg fs).length)) :
    List.Pairwise entryLe (dispatchList cfg fs) ∧
    runCounts cfg fs sched true =
      runCounts cfg fs (idSched (outcomesOf cfg fs).length) true ∧
    (∀ d1 d2, runDoc cfg fs sched true = some d1 →
      runDoc cfg fs (idSched (outcomesOf cfg fs).length) true = some d2 →
      d1.Perm d2) ∧
    (idSched (outcomesOf cfg fs).length).filterMap
      (fun i => (outcomesOf cfg fs).get? i) = outcomesOf cfg fs := by
  have houts : (idSched (outcomesOf cfg fs).length).filterMap
      (fun i => (outcomesOf cfg fs).get? i) = outcomesOf cfg fs := by
    unfold idSched
    exact filterMap_get_range (outcomesOf cfg fs)
  have hcp : (sched.filterMap (fun i => (outcomesOf cfg fs).get? i)).Perm
      (outcomesOf cfg fs) := completed_perm _ sched hperm
  refine ⟨?_, ?_, ?_, houts⟩
  · unfold dispatchList
    rw [if_pos hsort]
    exact sortEntries_pairwise _
  · unfold runCounts
    rw [process_ok_form cfg fs sched hroot, process_ok_form cfg fs _ hroot]
    rw [houts, hcp.countP_eq countsText, hcp.countP_eq countsBinary]
  · intro d1 d2 h1 h2
    unfold runDoc at h1 h2
    rw [process_ok_form cfg fs sched hroot] at h1
    rw [process_ok_form cfg fs _ hroot] at h2
    simp only [Option.some.injEq] at h1 h2
    rw [← h1, ← h2, houts, hcp.countP_eq countsText, hcp.countP_eq countsBinary]
    have hbody : ((sched.filterMap (fun i => (outcomesOf cfg fs).get? i)).map
        sectionOf).flatten.Perm ((outcomesOf cfg fs).map sectionOf).flatten :=
      (hcp.map sectionOf).flatten
    refine List.Perm.cons _ (List.Perm.append_right _ (List.Perm.append_left _ ?_))
    exact List.Perm.cons _ hbody

/-- C1 amended witness at the concrete two-file run. -/
theorem c1_amended_witness :
    List.Pairwise entryLe (dispatchList sortConfig fsBA) ∧
    runCounts sortConfig fsBA [1, 0] true =
      runCounts sortConfig fsBA (idSched (outcomesOf sortConfig fsBA).length) true ∧
    (∀ d1 d2, runDoc sortConfig fsBA [1, 0] true = some d1 →
      runDoc sortConfig fsBA (idSched (outcomesOf sortConfig fsBA).length) true = some d2 →
      d1.Perm d2) ∧
    (idSched (outcomesOf sortConfig fsBA).length).filterMap
      (fun i => (outcomesOf sortConfig fsBA).get? i) = outcomesOf sortConfig fsBA :=
  c1_amended sortConfig fsBA [1, 0] rfl rfl (by decide)

/-! ### Claim C2 -/

/-- C2 counterexample: a file with a text extension that cannot be opened is
skipped without aborting, but it is counted — the run reports
`binary_count = 1` for it (the `Ok(None)` path increments the binary
counter), refuting "counted as neither text nor binary". -/
theorem c2_counterexample :
    fileOutcome baseConfig entUnreadable = Outcome.binarySkip ∧
    runCounts baseConfig fsUnreadable [0] true = some (0, 1) := by
  decide

/-- C2 (amended): a collected file that cannot be opened/read, or whose
bytes fail UTF-8 decoding after a text classification, never aborts the run
(the run still completes for any schedule); the file contributes no document
section and is not counted as text, but it is counted in `binary_count`
(the summary's "Binary files skipped" counter). -/
theorem c2_amended (cfg : Config) (fs : FS) (sched : List Nat) (e : FSEntry)
    (hroot : fs.rootExists = true) (hf : e.isFile = true) (hm : e.metaOk = true)
    (hsz : e.size ≤ cfg.max_size)
    (hbad : e.bytes = none ∨
      (is_text_file (rustExtension (basenameOf e)) e.bytes = some true ∧
        ∀ bs, e.bytes = some bs → utf8Decode bs = none)) :
    fileOutcome cfg e = Outcome.binarySkip ∧
    sectionOf (fileOutcome cfg e) = [] ∧
    countsText (fileOutcome cfg e) = false ∧
    countsBinary (fileOutcome cfg e) = true ∧
    (∃ doc t b, process cfg fs sched true = .ok (doc, t, b)) := by
  have h1 := fileOutcome_binary_of_unreadable cfg e hf hm hsz hbad
  refine ⟨h1, by rw [h1]; rfl, by rw [h1]; rfl, by rw [h1]; rfl, ?_⟩
  exact ⟨_, _, _, process_ok_form cfg fs sched hroot⟩

/-- C2 amended witness at the concrete unreadable file. -/
theorem c2_amended_witness :
    fileOutcome baseConfig entUnreadable = Outcome.binarySkip ∧
    sectionOf (fileOutcome baseConfig entUnreadable) = [] ∧
    countsText (fileOutcome baseConfig entUnreadable) = false ∧
    countsBinary (fileOutcome baseConfig entUnreadable) = true ∧
    (∃ doc t b, process baseConfig fsUnreadable [0] true = .ok (doc, t, b)) :=
  c2_amended baseConfig fsUnreadable [0] entUnreadable rfl rfl rfl (by decide)
    (Or.inl rfl)

/-! ### Claim C3 -/

/-- C3 counterexample: with a search query that matches nothing, the single
collected file ends the run counted in no category: `text_count = 0`,
`binary_count = 0`, no size skip, yet one file survived the filter — the
three counters do not sum to the number of surviving files. -/
theorem c3_counterexample :
    (collect_files searchZzzConfig fsHello).length = 1 ∧
    runCounts searchZzzConfig fsHello [0] true = some (0, 0) ∧
    sizeSkipCount searchZzzConfig fsHello = 0 ∧
    0 + 0 + sizeSkipCount searchZzzConfig fsHello ≠
      (collect_files searchZzzConfig fsHello).length := by
  decide

/-- C3 (amended): when no search query is configured and every collected
entry is a regular file with readable metadata, `text_count + binary_count +
size-limit-skip count` equals the number of files surviving the path filter
(read-error files are inside `binary_count`); with a search query active,
search-excluded files are counted nowhere, which is what broke the original
claim. -/
theorem c3_amended (cfg : Config) (fs : FS) (sched : List Nat)
    (hs : cfg.search_text = none) (hroot : fs.rootExists = true)
    (hperm : sched.Perm (List.range (outcomesOf cfg fs).length))
    (hfiles : ∀ e ∈ collect_files cfg fs, e.isFile = true ∧ e.metaOk = true) :
    ∀ t b, runCounts cfg fs sched true = some (t, b) →
      t + b + sizeSkipCount cfg fs = (collect_files cfg fs).length := by
  intro t b hc
  unfold runCounts at hc
  rw [process_ok_form cfg fs sched hroot] at hc
  simp only [Option.some.injEq, Prod.mk.injEq] at hc
  rw [← hc.1, ← hc.2]
  have hcp : (sched.filterMap (fun i => (outcomesOf cfg fs).get? i)).Perm
      (outcomesOf cfg fs) := completed_perm _ sched hperm
  rw [hcp.countP_eq countsText, hcp.countP_eq countsBinary]
  show (outcomesOf cfg fs).countP countsText + (outcomesOf cfg fs).countP countsBinary +
      sizeSkipCount cfg fs = _
  unfold sizeSkipCount
  rw [countP_partition_outcomes (outcomesOf cfg fs) ?hcases]
  · unfold outcomesOf
    rw [List.length_map]
    exact dispatchList_length cfg fs
  case hcases =>
    intro o ho
    unfold outcomesOf at ho
    obtain ⟨e, he, rfl⟩ := List.mem_map.mp ho
    have hef := hfiles e (mem_dispatchList he)
    exact fileOutcome_cases cfg e hs hef.1 hef.2

/-- C3 amended witness at the concrete one-file run. -/
theorem c3_amended_witness :
    1 + 0 + sizeSkipCount baseConfig fsHello =
      (collect_files baseConfig fsHello).length :=
  c3_amended baseConfig fsHello [0] rfl rfl (by decide) (by decide) 1 0 (by decide)

/-! ### Claim C4 -/

/-- C4 counterexample: a 4096-byte sample of 100% printable ASCII that
begins with the `%PDF` magic number is classified Binary, because the
magic-number sniffing stage fires before the printable-byte heuristic —
refuting "100% printable ASCII always yields Text". -/
theorem c4_counterexample :
    pdfAsciiSample.length = 4096 ∧ (∀ b ∈ pdfAsciiSample, 32 ≤ b ∧ b ≤ 126) ∧
    is_text pdfAsciiSample = false := by
  have hinf : infer_get pdfAsciiSample = some "application/pdf".toList := by
    unfold infer_get
    rw [if_pos]
    rfl
  refine ⟨?_, ?_, ?_⟩
  · unfold pdfAsciiSample
    rw [List.length_append, List.length_replicate]
    rfl
  · intro b hb
    unfold pdfAsciiSample at hb
    rcases List.mem_append.mp hb with h | h
    · simp at h
      rcases h with rfl | rfl | rfl | rfl <;> omega
    · rw [List.mem_replicate] at h
      omega
  · unfold is_text
    rw [hinf]
    rw [if_neg (by rw [show pdfAsciiSample.isEmpty = false from rfl]; simp)]
    rw [if_pos (by decide)]

/-- C4 (amended): a 4096-byte sample of 100% printable ASCII in which no
binary-category magic signature is recognized is classified Text; and any
sample containing a null byte in its first 4096 bytes is classified Binary
unconditionally (even past the magic-number stage). -/
theorem c4_amended (data : List Nat) :
    (infer_get data = none → data.length = 4096 →
      (∀ b ∈ data, 32 ≤ b ∧ b ≤ 126) → is_text data = true) ∧
    (0 ∈ data.take 4096 → is_text data = false) := by
  constructor
  · intro hinf hlen hall
    have hne : data.isEmpty = false := by
      cases data with
      | nil => simp at hlen
      | cons a t => rfl
    have htake : data.take 4096 = data := List.take_of_length_le (by omega)
    have hnull : (data.take 4096).filter (fun b => b = 0) = [] := by
      rw [htake]
      rw [List.filter_eq_nil_iff]
      intro b hb
      have := hall b hb
      simp
      omega
    have hmin : min data.length 4096 = 4096 := by omega
    have hfil : data.filter (fun b => 32 ≤ b || b = 10 || b = 13 || b = 9) = data := by
      rw [List.filter_eq_self]
      intro b hb
      have := hall b hb
      simp
      omega
    unfold is_text
    rw [hinf, hne]
    rw [if_neg (by simp), if_neg (by simp)]
    rw [hnull]
    simp only [List.length_nil, gt_iff_lt, lt_irrefl, if_false]
    rw [hmin, htake, hfil, hlen]
    rw [if_neg (by omega)]
    simp
  · intro h0
    have hne : data.isEmpty = false := by
      cases data with
      | nil => simp at h0
      | cons a t => rfl
    have hcnt : 0 < ((data.take 4096).filter (fun b => b = 0)).length := by
      apply List.length_pos.mpr
      apply List.ne_nil_of_mem (a := (0 : Nat))
      apply List.mem_filter.mpr
      exact ⟨h0, by simp⟩
    unfold is_text
    rw [hne]
    rw [if_neg (by simp)]
    by_cases hbin : (match infer_get data with
        | some m => is_binary_mime_type m
        | none => false) = true
    · rw [if_pos hbin]
    · rw [if_neg hbin]
      rw [if_pos (by simpa using hcnt)]

/-- C4 amended witness: an all-`'a'` 4096-byte sample is Text; a sample with
a null byte is Binary. -/
theorem c4_amended_witness :
    is_text (List.replicate 4096 97) = true ∧ is_text [97, 0, 98] = false :=
  ⟨(c4_amended (List.replicate 4096 97)).1 (by decide) (by rw [List.length_replicate])
      (by
        intro b hb
        rw [List.mem_replicate] at hb
        omega),
   (c4_amended [97, 0, 98]).2 (by decide)⟩

/-! ### Claim C5 -/

/-- C5 counterexample: for the configured pattern `[` both the original and
the escaped string fail to compile, and the final fallback is the literal
pattern `NOMATCH` — which matches the filename `NOMATCH`, refuting "a
pattern matching nothing (no filename matches it)". -/
theorem c5_counterexample :
    patternFromConfig "[".toList = nomatchPattern ∧
    globMatches (patternFromConfig "[".toList) "NOMATCH".toList = true := by
  decide

/-- C5 (amended): pattern construction is a total fallback chain — a pattern
that compiles is used as-is; on compile failure the backslash-escaped string
is compiled; if that also fails the fallback is the fixed literal pattern
`NOMATCH`, which matches exactly the filename `NOMATCH` (not nothing).
No case crashes: the chain always produces a pattern. -/
theorem c5_amended :
    (∀ p pat, globCompile p = some pat → patternFromConfig p = pat) ∧
    (∀ p pat2, globCompile p = none → globCompile (escapeGlob p) = some pat2 →
      patternFromConfig p = pat2) ∧
    (∀ p, globCompile p = none → globCompile (escapeGlob p) = none →
      patternFromConfig p = nomatchPattern) ∧
    (∀ name, globMatches nomatchPattern name = true ↔ name = "NOMATCH".toList) := by
  refine ⟨?_, ?_, ?_, globMatches_nomatch⟩
  · intro p pat h
    unfold patternFromConfig
    rw [h]
  · intro p pat2 h h2
    unfold patternFromConfig
    rw [h, h2]
  · intro p h h2
    unfold patternFromConfig
    rw [h, h2]

/-- C5 amended witness at the concrete pattern `[`. -/
theorem c5_amended_witness :
    patternFromConfig "[".toList = nomatchPattern ∧
    globMatches nomatchPattern "NOMATCH".toList = true :=
  ⟨c5_amended.2.2.1 "[".toList (by decide) (by decide),
   (c5_amended.2.2.2 "NOMATCH".toList).mpr rfl⟩

/-! ### Claim C6 -/

/-- C6: if the root path does not exist, the run aborts with the path error
before any document is produced or handed to the sink (the result does not
even depend on the sink), and this is the only filesystem-caused fatal
condition: whenever the root exists, the run completes for any entries and
any schedule. -/
theorem c6_root_fatal (cfg : Config) (fs : FS) (sched : List Nat) :
    (fs.rootExists = false →
      (∀ sinkOk, process cfg fs sched sinkOk =
        .error ("Path does not exist: ".toList ++ cfg.path)) ∧
      runDoc cfg fs sched true = none) ∧
    (fs.rootExists = true →
      ∃ doc t b, process cfg fs sched true = .ok (doc, t, b)) := by
  constructor
  · intro hroot
    constructor
    · intro sinkOk
      exact process_error_of_no_root cfg fs sched sinkOk hroot
    · unfold runDoc
      rw [process_error_of_no_root cfg fs sched true hroot]
  · intro hroot
    exact ⟨_, _, _, process_ok_form cfg fs sched hroot⟩

/-- C6 witness: a concrete missing root aborts; a concrete existing root
completes. -/
theorem c6_root_fatal_witness :
    process baseConfig fsMissing [] true =
      .error ("Path does not exist: ".toList ++ baseConfig.path) ∧
    (∃ doc t b, process baseConfig fsHello [0] true = .ok (doc, t, b)) :=
  ⟨((c6_root_fatal baseConfig fsMissing []).1 rfl).1 true,
   (c6_root_fatal baseConfig fsHello [0]).2 rfl⟩

/-! ### Claim C7 -/

/-- Extensions in the static text set are never also in the binary set. -/
theorem text_binary_disjoint (e : Str) :
    is_common_text_extension e = true → is_common_binary_extension e = false := by
  unfold is_common_text_extension is_common_binary_extension
  intro h
  simp only [decide_eq_true_eq] at h
  generalize String.mk e = s at h ⊢
  fin_cases h <;> decide

/-- C7: a file whose lower-cased extension is in the static "always text"
set classifies as text with no dependence on the content; one in the
"always binary" set classifies as binary likewise; the content heuristic
(over at most 8192 read bytes) runs exactly when the extension is absent or
in neither set. -/
theorem c7_extension_fast_path (ext : Str) (bytes : Option (List Nat)) :
    (is_common_text_extension (lowerStr ext) = true →
      is_text_file (some ext) bytes = some true) ∧
    (is_common_binary_extension (lowerStr ext) = true →
      is_text_file (some ext) bytes = some false) ∧
    (is_common_text_extension (lowerStr ext) = false →
      is_common_binary_extension (lowerStr ext) = false →
      is_text_file (some ext) bytes = bytes.map (fun bs => is_text (bs.take 8192))) ∧
    is_text_file none bytes = bytes.map (fun bs => is_text (bs.take 8192)) := by
  refine ⟨?_, ?_, ?_, rfl⟩
  · intro h
    unfold is_text_file
    simp [h]
  · intro h
    have htext : is_common_text_extension (lowerStr ext) = false := by
      by_cases hx : is_common_text_extension (lowerStr ext) = true
      · rw [text_binary_disjoint _ hx] at h
        exact absurd h (by simp)
      · simpa using hx
    unfold is_text_file
    simp [htext, h]
  · intro h1 h2
    unfold is_text_file
    simp [h1, h2]

/-- C7 witness at three concrete extensions. -/
theorem c7_extension_fast_path_witness :
    is_text_file (some "TXT".toList) (some [0]) = some true ∧
    is_text_file (some "png".toList) (some [97]) = some false ∧
    is_text_file (some "xyz".toList) (some [97]) =
      (some [97] : Option (List Nat)).map (fun bs => is_text (bs.take 8192)) :=
  ⟨(c7_extension_fast_path "TXT".toList (some [0])).1 (by decide),
   (c7_extension_fast_path "png".toList (some [97])).2.1 (by decide),
   (c7_extension_fast_path "xyz".toList (some [97])).2.2.1 (by decide) (by decide)⟩

/-! ### Claim C8 -/

/-- C8 counterexample: for the ten-line file with one case-insensitive
match on line 5, the emitted excerpt carries the correctly numbered context
lines 2–8, but ends with a `"..."` line after the final emitted line (the
sorted sentinel separator entries collapse to one trailing `"..."`) —
refuting "none after the final emitted line". -/
theorem c8_counterexample :
    searchExcerpt false "hello".toList tenLines =
      ["2: l2".toList, "3: l3".toList, "4: l4".toList, "5: Hello World".toList,
       "6: l6".toList, "7: l7".toList, "8: l8".toList, "...".toList] ∧
    specExcerpt false "hello".toList tenLines =
      ["2: l2".toList, "3: l3".toList, "4: l4".toList, "5: Hello World".toList,
       "6: l6".toList, "7: l7".toList, "8: l8".toList] ∧
    searchExcerpt false "hello".toList tenLines ≠
      specExcerpt false "hello".toList tenLines := by
  decide

/-- C8 (amended): whenever at least one line matches, the emitted excerpt is
exactly the excerpt the specification describes (windows `[i-3, i+3]`
clamped to bounds, sorted, index-deduplicated, 1-based numbering, one
`"..."` exactly at each gap) followed by one extra trailing `"..."` line. -/
theorem c8_amended (caseSensitive : Bool) (q : Str) (lines : List Str)
    (hlen : lines.length ≤ SENTINEL)
    (hmatch : ∃ p, p ∈ lines.enum ∧ lineMatches caseSensitive q p.2 = true) :
    searchExcerpt caseSensitive q lines =
      specExcerpt caseSensitive q lines ++ ["...".toList] :=
  searchExcerpt_eq_spec caseSensitive q lines hlen hmatch

/-- C8 amended witness at the ten-line file. -/
theorem c8_amended_witness :
    searchExcerpt false "hello".toList tenLines =
      specExcerpt false "hello".toList tenLines ++ ["...".toList] :=
  c8_amended false "hello".toList tenLines (by decide)
    ⟨(4, "Hello World".toList), by decide, by decide⟩

/-! ### Claim C9 -/

/-- C9 counterexample: with the case-sensitive query `a\nb`, the file whose
content is `a\nb` has no line containing the query, yet `was_included` is
true (the file-level check is whole-content containment, which a query
spanning a line boundary can satisfy) — so the file is counted and
contributes to the document, refuting the claim as stated. -/
theorem c9_counterexample :
    (format_text_content (some "a\nb".toList) true "p".toList "a\nb".toList).1 = true ∧
    (∀ l ∈ rustLines "a\nb".toList, lineMatches true "a\nb".toList l = false) := by
  decide

/-- C9 (amended): for a nonempty query free of line-break characters, a text
file none of whose lines contains the query (case-folded when
case-insensitive) is excluded: its task yields `searchExcluded`, which
contributes no document section and no text count, and
`format_text_content` returns `(false, [])`; and an empty query matches
every text file, disabling the filter. -/
theorem c9_amended (cfg : Config) (e : FSEntry) (q content : Str)
    (hsq : cfg.search_text = some q) (hq : q ≠ []) (hnl : '\n' ∉ q) (hcr : '\r' ∉ q)
    (hpf : process_file e = some content)
    (hnoline : ∀ l ∈ rustLines content, lineMatches cfg.case_sensitive q l = false)
    (hf : e.isFile = true) (hm : e.metaOk = true) (hsz : e.size ≤ cfg.max_size) :
    fileOutcome cfg e = Outcome.searchExcluded ∧
    sectionOf (fileOutcome cfg e) = [] ∧
    countsText (fileOutcome cfg e) = false ∧
    format_text_content cfg.search_text cfg.case_sensitive (pathStrOf e) content =
      (false, []) ∧
    (∀ (cs2 : Bool) (path2 content2 : Str),
      (format_text_content (some []) cs2 path2 content2).1 = true) := by
  have hfound : (if cfg.case_sensitive then strContains content q
      else strContains (lowerStr content) (lowerStr q)) = false := by
    cases hx : (if cfg.case_sensitive then strContains content q
        else strContains (lowerStr content) (lowerStr q)) with
    | false => rfl
    | true =>
      obtain ⟨l, hl, hlm⟩ :=
        content_match_has_line cfg.case_sensitive q content hq hnl hcr hx
      rw [hnoline l hl] at hlm
      exact absurd hlm (by simp)
  have hfmt : format_text_content cfg.search_text cfg.case_sensitive (pathStrOf e)
      content = (false, []) := by
    rw [hsq]
    unfold format_text_content
    simp [hfound]
  have hout : fileOutcome cfg e = Outcome.searchExcluded := by
    unfold fileOutcome
    rw [hf, hm, if_neg (by simp), if_neg (by simp), if_neg (by omega), hpf]
    simp [hfmt]
  refine ⟨hout, by rw [hout]; rfl, by rw [hout]; rfl, hfmt, ?_⟩
  intro cs2 path2 content2
  have h1 : strContains content2 ([] : Str) = true := strContains_nil content2
  have h2 : strContains (lowerStr content2) (lowerStr ([] : Str)) = true :=
    strContains_nil (lowerStr content2)
  unfold format_text_content
  cases cs2 <;> simp [h1, h2]

/-- C9 amended witness at the concrete non-matching query. -/
theorem c9_amended_witness :
    fileOutcome searchZzzConfig entHello = Outcome.searchExcluded ∧
    sectionOf (fileOutcome searchZzzConfig entHello) = [] ∧
    countsText (fileOutcome searchZzzConfig entHello) = false ∧
    format_text_content searchZzzConfig.search_text searchZzzConfig.case_sensitive
      (pathStrOf entHello) "hello".toList = (false, []) ∧
    (∀ (cs2 : Bool) (path2 content2 : Str),
      (format_text_content (some []) cs2 path2 content2).1 = true) :=
  c9_amended searchZzzConfig entHello "zzz".toList "hello".toList rfl (by decide)
    (by decide) (by decide) (by decide) (by decide) rfl rfl (by decide)

/-! ### Claim C10 -/

/-- C10: with `skip_hidden` enabled the hidden rule rejects exactly the
entries whose own basename begins with `'.'`; traversal is not pruned, so a
file with a non-hidden basename inside a hidden directory (its name in the
earlier path components) still passes the filter and is collected — unless
some other rule (here: the excluded path components, hypothesised empty for
this path) rejects it. -/
theorem c10_hidden_no_prune (cfg : Config) (fs : FS) (e : FSEntry)
    (hhid : cfg.skip_hidden = true)
    (hincl : cfg.include_extensions = none) (hexcl : cfg.exclude_extensions = none)
    (hpat : cfg.pattern = none)
    (hnb : (basenameOf e).head? ≠ some '.')
    (_hanc : ∃ c ∈ e.components.dropLast, c.head? = some '.')
    (hexp : ∀ lst, cfg.exclude_paths = some lst →
      ∀ c ∈ splitSlash (pathStrOf e), c ∉ lst)
    (hroot : fs.rootExists = true) (hmem : e ∈ fs.entries)
    (hdepth : e.depth ≤ cfg.max_depth) (hdir : e.isDir = false) :
    should_process_file cfg e = true ∧ e ∈ collect_files cfg fs ∧
    (∀ e2 : FSEntry, (basenameOf e2).head? = some '.' →
      should_process_file cfg e2 = false) := by
  have hspf : should_process_file cfg e = true := by
    unfold should_process_file
    rw [if_neg (by simp [hnb])]
    rw [if_neg ?hpaths]
    case hpaths =>
      cases hcep : cfg.exclude_paths with
      | none => simp
      | some lst =>
        have hany : (splitSlash (pathStrOf e)).any (fun comp => lst.contains comp) =
            false := by
          apply List.any_eq_false.mpr
          intro c hc
          have hnotin := hexp lst hcep c hc
          intro hcon
          exact hnotin (List.elem_iff.mp hcon)
        show ¬ ((splitSlash (pathStrOf e)).any (fun comp => lst.contains comp) = true)
        rw [hany]
        simp
    rw [hincl, hexcl, hpat]
    simp
  refine ⟨hspf, ?_, ?_⟩
  · unfold collect_files
    rw [if_neg (by simp [hroot])]
    apply List.mem_filter.mpr
    refine ⟨hmem, ?_⟩
    simp [hdepth, hdir, hspf]
  · intro e2 h2
    unfold should_process_file
    rw [if_pos (by simp [hhid, h2])]

/-- C10 witness: the file `.git/config` (non-hidden basename inside a hidden
directory) is collected when `skip_hidden` is on. -/
theorem c10_hidden_no_prune_witness :
    should_process_file hiddenSkipConfig entInsideHidden = true ∧
    entInsideHidden ∈ collect_files hiddenSkipConfig fsInsideHidden ∧
    (∀ e2 : FSEntry, (basenameOf e2).head? = some '.' →
      should_process_file hiddenSkipConfig e2 = false) :=
  c10_hidden_no_prune hiddenSkipConfig fsInsideHidden entInsideHidden rfl rfl rfl rfl
    (by decide) ⟨".git".toList, by decide, rfl⟩ (by intro lst h; cases h) rfl
    (by decide) (by decide) rfl

end Yoink
